import Mathlib

/-!
# Verification of the Spangrams grid generators

A shallow embedding, in Lean 4, of the word-grid generators of this
repository:

* `src/lib/bfsStrandsGenerator.ts`  (namespace `BfsGen`)
* `src/lib/connectedGenerator.ts`   (namespace `ConnGen`)
* `src/unnamed/part_000` — the "pro" generator (namespace `ProGen`)
* `src/unnamed/part_004` — the "advanced" generator's path finder
  (namespace `AdvGen`)

The TypeScript code draws randomness from `Math.random()`.  Every such draw
is modelled by an explicit oracle: either a dedicated oracle field consumed
exactly once per use site, or a stream `ℕ → _` read through a counter that
is threaded through the computation, so that every real execution of the
code corresponds to one choice of oracle values.  Real time
(`Date.now()` timeout checks) is modelled the same way, as a stream of
boolean "expired?" answers indexed by a threaded counter.

JavaScript array accesses that can throw (`used[row][col]` evaluated before
the bounds check, with `row` out of range, in `part_000` and `part_004`)
are modelled in the exception monad `Except Unit`; all other code is total
and is embedded with plain functions.
-/

namespace Spangrams

/-! ## Grid geometry -/

/-- Grid width (`WIDTH = 6` in every generator file). -/
def WIDTH : Int := 6

/-- Grid height (`HEIGHT = 8`). -/
def HEIGHT : Int := 8

/-- Grid capacity (`CAPACITY = WIDTH * HEIGHT = 48`). -/
def CAPACITY : Nat := 48

/-- A grid position: `(row, col)` as JavaScript numbers (they can go
negative during neighbour probing, hence `Int`). -/
abbrev Pos := Int × Int

/-- The 8-direction offset table `DIRECTIONS`, in source order. -/
def DIRECTIONS : List (Int × Int) :=
  [(-1, -1), (-1, 0), (-1, 1), (0, -1), (0, 1), (1, -1), (1, 0), (1, 1)]

/-- `0 ≤ row < HEIGHT ∧ 0 ≤ col < WIDTH`. -/
def inBounds (p : Pos) : Prop :=
  0 ≤ p.1 ∧ p.1 < HEIGHT ∧ 0 ≤ p.2 ∧ p.2 < WIDTH

instance (p : Pos) : Decidable (inBounds p) := by
  unfold inBounds; infer_instance

/-- Boolean form of `inBounds`, used inside the embedded code. -/
def inBoundsB (p : Pos) : Bool :=
  decide (inBounds p)

/-- The 48 cells in row-major order — the iteration order of every
`for (row) for (col)` loop in the sources. -/
def allPositions : List Pos :=
  (List.range 8).flatMap fun r => (List.range 6).map fun c => ((r : Int), (c : Int))

/-- Offset addition for direction probing. -/
def shift (p : Pos) (d : Int × Int) : Pos := (p.1 + d.1, p.2 + d.2)

/-- 8-adjacency of two distinct cells: row and column each differ by at
most 1, and the cells differ. -/
def adjacent8 (p q : Pos) : Prop :=
  p ≠ q ∧ (p.1 - q.1).natAbs ≤ 1 ∧ (p.2 - q.2).natAbs ≤ 1

instance (p q : Pos) : Decidable (adjacent8 p q) := by
  unfold adjacent8; infer_instance

/-! ## Cells, grids and results -/

/-- One grid cell: `{ ch: string; isSpangram?: boolean }`.  The empty
string is modelled as `none`; the cell letters are single characters. -/
structure Cell where
  ch : Option Char
  isSpangram : Bool
deriving DecidableEq, Repr

/-- A grid, represented as its sequence of cell writes, newest first
(assignment semantics: the latest write to a position wins, untouched
positions read as the empty cell `{ ch: '' }`).  Out-of-bounds
positions exist in the model but the embedded code never writes or
reads them except where the original code would (those places are
modelled explicitly). -/
def GridF := List (Pos × Cell)

/-- `createEmptyGrid()`: no writes yet — every cell reads as
`{ ch: '' }` (no spangram flag). -/
def createEmptyGrid : GridF := []

/-- Point update of a grid (one assignment). -/
def setCell (g : GridF) (p : Pos) (c : Cell) : GridF := (p, c) :: g

/-- Read a grid cell: the latest write at the position, defaulting to
the empty cell. -/
def cellAt (g : GridF) (p : Pos) : Cell :=
  match g.find? (fun e => decide (e.1 = p)) with
  | some e => e.2
  | none => ⟨none, false⟩

/-- Reading after a write. -/
theorem cellAt_setCell (g : GridF) (p q : Pos) (c : Cell) :
    cellAt (setCell g p c) q = if q = p then c else cellAt g q := by
  unfold cellAt setCell
  by_cases h : q = p
  · rw [List.find?_cons_of_pos _ (by simp [h]), if_pos h]
  · rw [List.find?_cons_of_neg _ (by simp; exact fun he => h he.symm), if_neg h]

/-- Reading the empty grid. -/
theorem cellAt_empty (p : Pos) : cellAt createEmptyGrid p = ⟨none, false⟩ := rfl

/-- The result record shared by all generator entry points. -/
structure GenResult where
  grid : GridF
  errors : List String
  warnings : List String
  lettersUsed : Nat
  spangramRemaining : Nat

/-- The input record `{title, theme, author, words}`. -/
structure Input where
  title : String
  theme : String
  author : String
  words : List String

/-! ## Sanitization (identical in all generator files) -/

/-- `sanitizeWord`: strip non-alphabetic characters, lowercase.  Words are
modelled as `List Char`. -/
def sanitizeWord (w : String) : List Char :=
  (w.data.filter Char.isAlpha).map Char.toLower

/-- `cleanWords`: sanitize each word and drop the empty results
(`filter(Boolean)`). -/
def cleanWordsOf (ws : List String) : List (List Char) :=
  (ws.map sanitizeWord).filter (fun w => !w.isEmpty)

/-- `lettersUsed = cleanWords.join('').length`. -/
def lettersUsedOf (ws : List (List Char)) : Nat :=
  (ws.map List.length).sum

/-- The letter-count error message
`` `Total letters must equal 48. Currently ${lettersUsed}.` ``. -/
def capacityMsg (n : Nat) : String :=
  "Total letters must equal 48. Currently " ++ toString n ++ "."

/-- Outcome of input validation (common shape). -/
structure Validation where
  errors : List String
  warnings : List String
  cleanWords : List (List Char)
  lettersUsed : Nat

namespace BfsGen

/-! ## `src/lib/bfsStrandsGenerator.ts` — input validation -/

/-- `validateInput` of the BFS generator: empty-words error, spangram
minimum-length error, letter-count error; no warnings are produced. -/
def validateInput (input : Input) : Validation :=
  let cleanWords := cleanWordsOf input.words
  let lettersUsed := lettersUsedOf cleanWords
  let spangram := cleanWords.headD []
  let errors :=
    (if cleanWords.length = 0 then ["ERROR: Can not have empty words."] else []) ++
    (if spangram.length < 6 then ["ERROR: Spangram must be at least 6 letters."] else []) ++
    (if lettersUsed ≠ CAPACITY then [capacityMsg lettersUsed] else [])
  { errors := errors, warnings := [], cleanWords := cleanWords, lettersUsed := lettersUsed }

/-! ## Grid graph (`createGridGraph`)

Each diagonal edge is dropped with probability 1/2; those coin flips are
the oracle `dropDiag`, drawn once per (node, direction) pair, exactly as
the source draws them. -/

/-- A direction is diagonal when both offsets are ±1. -/
def isDiagonal (d : Int × Int) : Bool := d.1.natAbs = 1 && d.2.natAbs = 1

/-- `createGridGraph()` as a neighbour function: all in-bounds 8-neighbours,
minus the diagonal edges the oracle drops. -/
def gridNeighbors (dropDiag : Pos → Int × Int → Bool) (p : Pos) : List Pos :=
  DIRECTIONS.filterMap fun d =>
    let q := shift p d
    if inBoundsB q && !(isDiagonal d && dropDiag p d) then some q else none

/-! ## `runBFS` -/

/-- The mutable BFS state: the `distances` matrix (`-1` = undiscovered),
the `parent` map (`none` covers both "unset" and the explicit `null` of
the start, which the source itself cannot distinguish through
`parent.get(key) || null`), and the queue. -/
structure BfsSt where
  dist : Pos → Int
  parent : Pos → Option Pos
  queue : List Pos

/-- Relax one neighbour of `cur`: discover it, record distance and
parent, push it. -/
def relaxNbr (cur : Pos) (st : BfsSt) (nbr : Pos) : BfsSt :=
  if st.dist nbr = -1 then
    { dist := fun p => if p = nbr then st.dist cur + 1 else st.dist p,
      parent := fun p => if p = nbr then some cur else st.parent p,
      queue := st.queue ++ [nbr] }
  else st

/-- The path-reconstruction loop (`while (node) { path.unshift(node); node
= parent... }`), with fuel; the BFS invariants below show fuel `64` is
never exhausted on reachable states. -/
def walkParents (parent : Pos → Option Pos) : Nat → Pos → List Pos
  | 0, _ => []
  | fuel + 1, p =>
      match parent p with
      | none => [p]
      | some q => walkParents parent fuel q ++ [p]

/-- The BFS `while (queue.length > 0)` loop.  Each push is a fresh
discovery of one of the 48 cells, so at most 49 iterations ever run and
fuel `100` is never exhausted. -/
def bfsLoop (nbrs : Pos → List Pos) (target : Pos) : Nat → BfsSt → Option (List Pos)
  | 0, _ => none
  | fuel + 1, st =>
      match st.queue with
      | [] => none
      | cur :: rest =>
          if cur = target then some (walkParents st.parent 64 cur)
          else
            bfsLoop nbrs target fuel
              ((nbrs cur).foldl (relaxNbr cur) { st with queue := rest })

/-- `runBFS(graph, start, target)`, returning the reconstructed path when
the target is reached (the `distances` part of the result is never
consumed by the callers and is dropped here). -/
def runBFS (nbrs : Pos → List Pos) (start target : Pos) : Option (List Pos) :=
  bfsLoop nbrs target 100
    ⟨fun p => if p = start then 0 else -1, fun _ => none, [start]⟩

/-! ## `placeSpangram` -/

/-- The (start, end) border pairs tried, in loop order: left column to
right column for the horizontal coin, top row to bottom row otherwise. -/
def placePairs (horiz : Bool) : List (Pos × Pos) :=
  if horiz then
    (List.range 8).flatMap fun sr =>
      (List.range 8).map fun er => (((sr : Int), 0), ((er : Int), WIDTH - 1))
  else
    (List.range 6).flatMap fun sc =>
      (List.range 6).map fun ec => ((0, (sc : Int)), (HEIGHT - 1, (ec : Int)))

/-- Try the pairs in order; accept the first BFS path at least as long as
the spangram and truncate it to the spangram's length. -/
def placeSpangramLoop (nbrs : Pos → List Pos) (len : Nat) :
    List (Pos × Pos) → Option (List Pos)
  | [] => none
  | (s, e) :: rest =>
      match runBFS nbrs s e with
      | some path =>
          if len ≤ path.length then some (path.take len)
          else placeSpangramLoop nbrs len rest
      | none => placeSpangramLoop nbrs len rest

/-- `placeSpangram(graph, spangram)`; the horizontal/vertical coin is the
oracle `horiz`. -/
def placeSpangram (nbrs : Pos → List Pos) (horiz : Bool)
    (spangram : List Char) : Option (List Pos) :=
  placeSpangramLoop nbrs spangram.length (placePairs horiz)

/-! ## `subsetSum` -/

/-- The subset-sum DP table as a recurrence:
`dp[i+1][j] = dp[i][j] || (j ≥ len_i && dp[i][j - len_i])`, with
`dp[i][0] = true` and `dp[0][j>0] = false` — exactly the tabulation the
source fills row by row. -/
def dp (lengths : List Nat) : Nat → Nat → Bool
  | 0, 0 => true
  | 0, _ + 1 => false
  | i + 1, j =>
      dp lengths i j ||
        (decide (lengths.getD i 0 ≤ j) && dp lengths i (j - lengths.getD i 0))

/-- The backtracking loop recovering the chosen indices (the source walks
`i` from `n` down, greedily including word `i-1` whenever
`j ≥ len[i-1] && dp[i-1][j - len[i-1]]`). -/
def backtrack (lengths : List Nat) : Nat → Nat → List Nat
  | 0, _ => []
  | i + 1, j =>
      if j = 0 then []
      else
        let w := lengths.getD i 0
        if w ≤ j && dp lengths i (j - w) then i :: backtrack lengths i (j - w)
        else backtrack lengths i j

/-- `words.filter((_, idx) => !leftIndices.includes(idx))`. -/
def rightOf (words : List (List Char)) (leftIndices : List Nat) : List (List Char) :=
  (words.enum.filter fun wi => !leftIndices.contains wi.1).map fun wi => wi.2

/-- `subsetSum(words, target)`. -/
def subsetSum (words : List (List Char)) (target : Nat) :
    Option (List (List Char) × List (List Char)) :=
  let wordLengths := words.map List.length
  if dp wordLengths words.length target = false then none
  else
    let leftIndices := backtrack wordLengths words.length target
    let left := leftIndices.map fun idx => words.getD idx []
    let right := rightOf words leftIndices
    some (left, right)

/-! ## `findLongestPath` / `dfsLongestPath`

`Date.now() - startTime > timeout` checks are modelled by a boolean
stream `timer` read through a threaded counter (each check is one read);
a real execution corresponds to a monotone stream. -/

/-- The neighbour loop of `dfsLongestPath`: recurse into unvisited
available neighbours, keep the longest result, break once the target
length is reached. -/
def dfsLPChildren (recur : Pos → Nat → Option (List Pos) × Nat)
    (newVisited : List Pos) (avail : Pos → Bool) (target : Nat) :
    List Pos → Option (List Pos) → Nat → Option (List Pos) × Nat
  | [], best, k => (best, k)
  | nbr :: rest, best, k =>
      if !newVisited.contains nbr && avail nbr then
        match recur nbr k with
        | (result, j) =>
            let best' :=
              match result, best with
              | some r, some b => if b.length < r.length then some r else some b
              | some r, none => some r
              | none, b => b
            if (match best' with | some b => decide (target ≤ b.length) | none => false) then (best', j)
            else dfsLPChildren recur newVisited avail target rest best' j
      else dfsLPChildren recur newVisited avail target rest best k

/-- `dfsLongestPath`.  The recursion depth is bounded by the number of
available cells (+1), so fuel `64` is never exhausted on real runs. -/
def dfsLP (nbrs : Pos → List Pos) (avail : Pos → Bool) (timer : Nat → Bool)
    (target : Nat) :
    Nat → Nat → List Pos → List Pos → Pos → Option (List Pos) × Nat
  | 0, k, _, _, _ => (none, k)
  | fuel + 1, k, visited, path, cur =>
      if timer k then (none, k + 1)
      else if visited.contains cur || !avail cur then (none, k + 1)
      else
        let newVisited := cur :: visited
        let newPath := path ++ [cur]
        if target ≤ newPath.length then (some newPath, k + 1)
        else
          match
            dfsLPChildren (fun nbr j => dfsLP nbrs avail timer target fuel j newVisited newPath nbr)
              newVisited avail target (nbrs cur) none (k + 1) with
          | (best, j) => (some (best.getD newPath), j)

/-- The `for (nodeKey of availableNodes)` loop of `findLongestPath`, with
the timeout `break` at the loop head and the final
`bestPath.length >= targetLength` filter. -/
def flpLoop (nbrs : Pos → List Pos) (avail : Pos → Bool) (timer : Nat → Bool)
    (target : Nat) : List Pos → Option (List Pos) → Nat → Option (List Pos)
  | [], best, _ =>
      match best with
      | some b => if target ≤ b.length then some (b.take target) else none
      | none => none
  | node :: rest, best, k =>
      if timer k then
        match best with
        | some b => if target ≤ b.length then some (b.take target) else none
        | none => none
      else
        match dfsLP nbrs avail timer target 64 (k + 1) [] [] node with
        | (pathOpt, j) =>
            match pathOpt with
            | some path =>
                if target ≤ path.length then some (path.take target)
                else
                  let best' :=
                    match best with
                    | some b => if b.length < path.length then some path else some b
                    | none => some path
                  flpLoop nbrs avail timer target rest best' j
            | none => flpLoop nbrs avail timer target rest best j

/-- `findLongestPath(graph, availableNodes, targetLength)`; the node set
is a list in insertion (row-major, minus deletions) order. -/
def findLongestPath (nbrs : Pos → List Pos) (availList : List Pos)
    (timer : Nat → Bool) (target : Nat) : Option (List Pos) :=
  flpLoop nbrs (fun p => availList.contains p) timer target availList none 0

/-! ## `runBFSStrandsAlgorithm` -/

/-- `'abcdefghijklmnopqrstuvwxyz'`. -/
def alphabet : List Char := "abcdefghijklmnopqrstuvwxyz".data

/-- One word with the path actually chosen for it. -/
structure WordPlacement where
  word : List Char
  path : List Pos

/-- The oracle for one attempt of the algorithm. -/
structure AttO where
  /-- Coin dropping a diagonal edge of the grid graph. -/
  dropDiag : Pos → Int × Int → Bool
  /-- The horizontal/vertical coin of `placeSpangram`. -/
  horiz : Bool
  /-- The shuffle-and-maybe-reverse applied to the left (`false`) and
  right (`true`) partitions. -/
  mix : Bool → List (List Char) → List (List Char)
  /-- Timeout answers: `timer callIdx k` is the `k`-th `Date.now` check
  inside the `callIdx`-th `findLongestPath` call. -/
  timer : Nat → Nat → Bool
  /-- Index of the random filler letter drawn for an empty cell. -/
  fillIdx : Pos → Nat

/-- The word-placement loops (left partition then right partition; the
source's two identical loops are run as one pass over the
concatenation).  Fails when `findLongestPath` returns null or an empty
path; the lenient branch keeps a shorter path. -/
def placeWordsLoop (nbrs : Pos → List Pos) (timer : Nat → Nat → Bool) :
    List (List Char) → Nat → List Pos → List WordPlacement →
    Option (List WordPlacement)
  | [], _, _, acc => some acc
  | word :: rest, callIdx, avail, acc =>
      match findLongestPath nbrs avail (timer callIdx) word.length with
      | none => none
      | some path =>
          let actualPath := if word.length ≤ path.length then path.take word.length else path
          if actualPath.isEmpty then none
          else
            placeWordsLoop nbrs timer rest (callIdx + 1)
              (avail.filter fun p => !actualPath.contains p)
              (acc ++ [⟨word, actualPath⟩])

/-- Step 6a: write the spangram letters (flagged) along its path. -/
def writeSpangram (grid : GridF) (spangram : List Char) (path : List Pos) : GridF :=
  (List.range spangram.length).foldl
    (fun g i => setCell g (path.getD i (0, 0)) ⟨some (spangram.getD i ' '), true⟩) grid

/-- Step 6b: write a word along its path, only into in-bounds, still
empty cells (the source guards with
`pos && grid[pos.row] && grid[pos.row][pos.col] && !....ch`). -/
def writeWord (grid : GridF) (word : List Char) (path : List Pos) : GridF :=
  (List.range (min word.length path.length)).foldl
    (fun g i =>
      let pos := path.getD i (0, 0)
      if inBoundsB pos && (cellAt g pos).ch = none then
        setCell g pos ⟨some (word.getD i ' '), false⟩
      else g) grid

/-- Step 6c: spill letters left over from a too-short path into the
first empty cells in row-major order. -/
def writeSpill : List Pos → GridF → List Char → GridF
  | [], g, _ => g
  | _ :: _, g, [] => g
  | p :: rest, g, c :: cs =>
      if (cellAt g p).ch = none then writeSpill rest (setCell g p ⟨some c, false⟩) cs
      else writeSpill rest g (c :: cs)

/-- Apply every word placement (write along path, then spill the
overflow). -/
def applyPlacements (grid : GridF) : List WordPlacement → GridF
  | [] => grid
  | pl :: rest =>
      let g1 := writeWord grid pl.word pl.path
      let g2 :=
        if pl.path.length < pl.word.length then
          writeSpill allPositions g1 (pl.word.drop pl.path.length)
        else g1
      applyPlacements g2 rest

/-- Final fill: every still-empty cell receives a random alphabet
letter. -/
def fillRandom (fillIdx : Pos → Nat) (grid : GridF) : GridF :=
  allPositions.foldl
    (fun g p =>
      if (cellAt g p).ch = none then
        setCell g p ⟨some (alphabet.getD (fillIdx p % 26) 'a'), false⟩
      else g) grid

/-- `runBFSStrandsAlgorithm(words)` under one attempt oracle.  The
embedded code is total, so the source's `catch` branch is dead. -/
def runBFSStrandsAlgorithm (O : AttO) (words : List (List Char)) : Bool × GridF :=
  let spangram := words.headD []
  let otherWords := words.drop 1
  let nbrs := gridNeighbors O.dropDiag
  match placeSpangram nbrs O.horiz spangram with
  | none => (false, createEmptyGrid)
  | some spangramPath =>
      let availablePositions := allPositions.filter fun p => !spangramPath.contains p
      let totalOtherLetters := (otherWords.map List.length).sum
      let target := totalOtherLetters / 2
      match subsetSum otherWords target with
      | none => (false, createEmptyGrid)
      | some (left, right) =>
          let shuffledLeft := O.mix false left
          let shuffledRight := O.mix true right
          match placeWordsLoop nbrs O.timer (shuffledLeft ++ shuffledRight) 0
              availablePositions [] with
          | none => (false, createEmptyGrid)
          | some wordPlacements =>
              let grid0 := writeSpangram createEmptyGrid spangram spangramPath
              let grid1 := applyPlacements grid0 wordPlacements
              (true, fillRandom O.fillIdx grid1)

/-- The 10-attempt retry loop of `generateBFSStrandsGrid`. -/
def bfsAttemptLoop (O : Nat → AttO) (words : List (List Char)) :
    Nat → Nat → Option GridF
  | 0, _ => none
  | n + 1, attemptIdx =>
      match runBFSStrandsAlgorithm (O attemptIdx) words with
      | (true, grid) => some grid
      | (false, _) => bfsAttemptLoop O words n (attemptIdx + 1)

/-- The terminal error of the BFS generator. -/
def terminalMsg : String := "Failed to generate valid Strands grid after maximum attempts"

/-- `generateBFSStrandsGrid(input)` with one attempt oracle per retry. -/
def generateBFSStrandsGrid (O : Nat → AttO) (input : Input) : GenResult :=
  let validation := validateInput input
  if validation.errors ≠ [] then
    { grid := createEmptyGrid, errors := validation.errors,
      warnings := validation.warnings, lettersUsed := validation.lettersUsed,
      spangramRemaining := 0 }
  else
    match bfsAttemptLoop O validation.cleanWords 10 0 with
    | some grid =>
        { grid := grid, errors := [], warnings := validation.warnings,
          lettersUsed := validation.lettersUsed, spangramRemaining := 0 }
    | none =>
        { grid := createEmptyGrid, errors := [terminalMsg],
          warnings := validation.warnings, lettersUsed := validation.lettersUsed,
          spangramRemaining := 0 }

end BfsGen

namespace ConnGen

/-! ## `src/lib/connectedGenerator.ts` — input validation -/

/-- `validateInput` of the connected generator: empty-words error,
letter-count error; a short spangram only produces a warning. -/
def validateInput (input : Input) : Validation :=
  let cleanWords := cleanWordsOf input.words
  let lettersUsed := lettersUsedOf cleanWords
  let spangram := cleanWords.headD []
  let spRemaining := 6 - spangram.length
  let errors :=
    (if cleanWords.length = 0 then ["ERROR: Can not have empty words."] else []) ++
    (if lettersUsed ≠ CAPACITY then [capacityMsg lettersUsed] else [])
  let warnings :=
    if 0 < spRemaining then
      ["Spangram needs " ++ toString spRemaining ++ " more letters."] else []
  { errors := errors, warnings := warnings, cleanWords := cleanWords,
    lettersUsed := lettersUsed }

/-! ## Path search (`buildWordPath` and its inner `dfs`)

The recursive `dfs(row, col, letterIndex)` of `buildWordPath` is embedded
with `fuel = word.length - letterIndex` (the number of letters still to
place, including the current cell), so `fuel = 0` is `letterIndex ==
word.length` and `fuel = 1` is `letterIndex == word.length - 1`.  The
direction shuffle drawn at each call is `o k` for a threaded counter `k`.
The function returns the list of cells pushed from the current call on
(so a successful top-level call returns the whole path). -/

/-- Iterate the shuffled directions: recurse into the first in-bounds
neighbour whose search succeeds (`EXPLICIT boundary check before
recursion`), threading the shuffle counter. -/
def firstChild (child : Pos → Nat → Option (List Pos) × Nat) (p : Pos) :
    List (Int × Int) → Nat → Option (List Pos) × Nat
  | [], k => (none, k)
  | d :: rest, k =>
      let q := shift p d
      if inBoundsB q then
        match child q k with
        | (some suffix, j) => (some suffix, j)
        | (none, j) => firstChild child p rest j
      else firstChild child p rest k

/-- The `dfs` closure of `buildWordPath`: guard (`visited`, occupancy,
bounds), push, last-letter success, otherwise try the freshly shuffled
directions and backtrack on failure. -/
def dfsConn (o : Nat → List (Int × Int)) (used : Pos → Bool) :
    Nat → Nat → List Pos → Pos → Option (List Pos) × Nat
  | 0, k, _, _ => (some [], k)
  | fuel + 1, k, visited, p =>
      if visited.contains p || used p || !inBoundsB p then (none, k)
      else if fuel = 0 then (some [p], k)
      else
        match firstChild (fun q j => dfsConn o used fuel j (p :: visited) q) p (o k) (k + 1) with
        | (some suffix, j) => (some (p :: suffix), j)
        | (none, j) => (none, j)

/-- `buildWordPath(usedPositions, word, start)`: validate the start
position, run the DFS, return the accumulated path or `[]`. -/
def buildWordPath (o : Nat → List (Int × Int)) (used : Pos → Bool)
    (word : List Char) (start : Pos) (k : Nat) : List Pos × Nat :=
  if inBoundsB start then
    match dfsConn o used word.length k [] start with
    | (some path, j) => (path, j)
    | (none, j) => ([], j)
  else ([], k)

/-- One entry of the `letterPlacements` list. -/
structure Placement where
  letter : Char
  pos : Pos
  wordIndex : Int
  letterIndex : Int

/-- `findWordPath(existingPlacements, word, wordIndex)`: try
`buildWordPath` from every free position in row-major order; return the
first full-length path, else `[]`. -/
def findWordPathLoop (o : Nat → List (Int × Int)) (used : Pos → Bool)
    (word : List Char) : List Pos → Nat → List Pos × Nat
  | [], k => ([], k)
  | start :: rest, k =>
      match buildWordPath o used word start k with
      | (path, j) =>
          if path.length = word.length then (path, j)
          else findWordPathLoop o used word rest j

/-- Wrapper computing the free positions from the placement list. -/
def findWordPath (o : Nat → List (Int × Int)) (placements : List Placement)
    (word : List Char) (k : Nat) : List Pos × Nat :=
  let used : Pos → Bool := fun p => placements.any fun pl => pl.pos = p
  let availablePositions := allPositions.filter fun p => !used p
  findWordPathLoop o used word availablePositions k

/-! ## One connected-generation attempt

`generateSpangramPath()` picks one of four randomized path strategies
(diagonal, spiral, zigzag, curved); its output — the generated candidate
path — is supplied by the oracle (`spanPathVal`), since the claims
quantify over the randomness.  All real strategy outputs are lists of
in-bounds positions (every strategy clamps to the grid), which is the
hypothesis carried where it matters. -/

/-- State of the word-placement loop of `attemptConnectedGeneration`. -/
structure ConnWordState where
  placements : List Placement
  remainingLetters : List Char
  counter : Nat

/-- The per-word body of the loop: find a path; on full length append the
word's placements and splice the word's letters out of
`remainingLetters`, else fail. -/
def connPlaceWord (o : Nat → List (Int × Int)) (st : ConnWordState)
    (word : List Char) (wordIndex : Nat) : Option ConnWordState :=
  match findWordPath o st.placements word st.counter with
  | (wordPath, j) =>
      if wordPath.length = word.length then
        let newPlacements :=
          (List.range word.length).map fun i =>
            Placement.mk (word.getD i ' ') (wordPath.getD i (0, 0)) (wordIndex : Int) (i : Int)
        let newRemaining := word.foldl (fun acc letter => acc.erase letter) st.remainingLetters
        some ⟨st.placements ++ newPlacements, newRemaining, j⟩
      else none

/-- Loop over `words[1..]`, threading state, failing the attempt if any
word cannot be placed. -/
def connPlaceWords (o : Nat → List (Int × Int)) :
    List (List Char) → Nat → ConnWordState → Option ConnWordState
  | [], _, st => some st
  | w :: ws, wordIndex, st =>
      match connPlaceWord o st w wordIndex with
      | some st' => connPlaceWords o ws (wordIndex + 1) st'
      | none => none

/-- Step 3: fill remaining positions (row-major) with the leftover
letters while any remain. -/
def connFillGaps : List Pos → List Placement → List Char → List Placement
  | [], placements, _ => placements
  | p :: rest, placements, remaining =>
      if placements.any (fun pl => pl.pos = p) then
        connFillGaps rest placements remaining
      else
        match remaining with
        | [] => connFillGaps rest placements []
        | c :: cs => connFillGaps rest (placements ++ [Placement.mk c p (-1) (-1)]) cs

/-- `attemptConnectedGeneration(words)`; `spanPathVal` is the oracle value
of `generateSpangramPath()` for this attempt. -/
def attemptConnectedGeneration (o : Nat → List (Int × Int))
    (words : List (List Char)) (spanPathVal : List Pos) (k : Nat) :
    (Bool × GridF) × Nat :=
  let grid0 := createEmptyGrid
  let spangram := words.headD []
  if spanPathVal.length < spangram.length then ((false, grid0), k)
  else
    let spanPlacements :=
      (List.range spangram.length).map fun i =>
        Placement.mk (spangram.getD i ' ') (spanPathVal.getD i (0, 0)) 0 (i : Int)
    let remaining0 := (words.drop 1).flatten
    match connPlaceWords o (words.drop 1) 1 ⟨spanPlacements, remaining0, k⟩ with
    | none => ((false, grid0), k)
    | some st =>
        let finalPlacements := connFillGaps allPositions st.placements st.remainingLetters
        let grid := finalPlacements.foldl
          (fun g pl => setCell g pl.pos ⟨some pl.letter, pl.wordIndex = 0⟩) grid0
        let filledCount := (allPositions.filter fun p => (cellAt grid p).ch ≠ none).length
        ((filledCount = CAPACITY, grid), st.counter)

/-- `createSimpleWorkingGrid(words)`: row-major fill of all 48 cells with
the concatenated letters (padded with `'a'`), the first
`words[0].length` cells flagged as spangram; always succeeds. -/
def createSimpleWorkingGrid (words : List (List Char)) : Bool × GridF :=
  let allLetters := words.flatten
  let spangramLength := (words.headD []).length
  let grid := (allPositions.enum.foldl
    (fun g pi => setCell g pi.2 ⟨some (allLetters.getD pi.1 'a'), decide (pi.1 < spangramLength)⟩)
    createEmptyGrid)
  (true, grid)

/-- The oracle for one `generateConnectedGrid` call. -/
structure ConnO where
  /-- `generateSpangramPath()`'s output at each attempt. -/
  spanPath : Nat → List Pos
  /-- The stream of direction shuffles consumed by the DFS. -/
  dirs : Nat → List (Int × Int)

/-- The 50-attempt loop of `tryConnectedPlacement`, falling back to
`createSimpleWorkingGrid`. -/
def tryConnLoop (O : ConnO) (words : List (List Char)) :
    Nat → Nat → Nat → Bool × GridF
  | 0, _, _ => createSimpleWorkingGrid words
  | n + 1, attempt, k =>
      match attemptConnectedGeneration O.dirs words (O.spanPath attempt) k with
      | ((true, grid), _) => (true, grid)
      | ((false, _), k') => tryConnLoop O words n (attempt + 1) k'

/-- `tryConnectedPlacement(words)`. -/
def tryConnectedPlacement (O : ConnO) (words : List (List Char)) : Bool × GridF :=
  tryConnLoop O words 50 0 0

/-- `generateConnectedGrid(input)`.  The embedded attempt code is total
(the original throws nowhere: every array access is bounds-clamped), so
the `catch` branch is dead and is not modelled. -/
def generateConnectedGrid (O : ConnO) (input : Input) : GenResult :=
  let validation := validateInput input
  if validation.errors ≠ [] then
    { grid := createEmptyGrid, errors := validation.errors,
      warnings := validation.warnings, lettersUsed := validation.lettersUsed,
      spangramRemaining := 0 }
  else
    let words := validation.cleanWords
    let result := tryConnectedPlacement O words
    { grid := result.2,
      errors := if result.1 then [] else ["Failed to create connected grid"],
      warnings := validation.warnings, lettersUsed := validation.lettersUsed,
      spangramRemaining := 0 }

end ConnGen

/-! ## The occupancy-before-bounds DFS shared by `part_000` and `part_004`

Both files guard their recursive `dfs` with

`if (visited.has(key) || used[row][col] || row < 0 || row >= HEIGHT || ...)`

and recurse into neighbours without a prior bounds check.  When `row` is
outside `[0, HEIGHT)`, `used[row]` is `undefined` and `used[row][col]`
throws a `TypeError`; when only `col` is out of range the read yields
`undefined` (falsy) and the explicit bounds test then rejects the cell.
The read is modelled in `Except Unit`. -/

/-- `used[row][col]`: crashes when the row is out of range, otherwise the
flag (false whenever the column is out of range). -/
def usedRead (used : Pos → Bool) (p : Pos) : Except Unit Bool :=
  if 0 ≤ p.1 ∧ p.1 < HEIGHT then Except.ok (inBoundsB p && used p) else Except.error ()

/-- Direction loop of the crashing DFS: recurse into `p + d` directly (no
bounds pre-check), propagating a crash, taking the first success. -/
def tryDirsRaw (child : Pos → Nat → Except Unit (Option (List Pos) × Nat)) (p : Pos) :
    List (Int × Int) → Nat → Except Unit (Option (List Pos) × Nat)
  | [], k => Except.ok (none, k)
  | d :: rest, k =>
      match child (shift p d) k with
      | Except.error e => Except.error e
      | Except.ok (some suffix, j) => Except.ok (some suffix, j)
      | Except.ok (none, j) => tryDirsRaw child p rest j

/-- The `dfs(row, col, letterIndex)` of `part_000`'s
`buildSpangramPath`/`buildWordPath` and `part_004`'s `findWordPath`,
parameterized by the per-call direction provider (which may draw from the
oracle, threading the counter).  Returns the cells pushed from this call
on.  The fuel argument (`len + 1` at top level) only bounds the
recursion; the index reaches `len` before it can run out. -/
def dfsRaw (dirP : Nat → Pos → Nat → List (Int × Int) × Nat) (used : Pos → Bool)
    (len : Nat) :
    Nat → Nat → Nat → List Pos → Pos → Except Unit (Option (List Pos) × Nat)
  | 0, _, k, _, _ => Except.ok (none, k)
  | fuel + 1, idx, k, visited, p =>
      if idx = len then Except.ok (some [], k)
      else if visited.contains p then Except.ok (none, k)
      else
        match usedRead used p with
        | Except.error e => Except.error e
        | Except.ok u =>
            if u then Except.ok (none, k)
            else if !inBoundsB p then Except.ok (none, k)
            else if idx = len - 1 then Except.ok (some [p], k)
            else
              let dsk := dirP idx p k
              match tryDirsRaw
                  (fun q j => dfsRaw dirP used len fuel (idx + 1) j (p :: visited) q)
                  p dsk.1 dsk.2 with
              | Except.error e => Except.error e
              | Except.ok (some suffix, j) => Except.ok (some (p :: suffix), j)
              | Except.ok (none, j) => Except.ok (none, j)

namespace ProGen

/-! ## `src/unnamed/part_000` — the "pro" generator

Randomness oracle: `nat` is the stream of `Math.floor(Math.random() * n)`
style draws (reduced modulo the relevant bound at each use site), `dirs`
the stream of direction shuffles; both are read through one threaded
counter. -/

/-- The randomness oracle of one `generateProGrid` call. -/
structure ProO where
  nat : Nat → Nat
  dirs : Nat → List (Int × Int)

/-- Occupancy matrix. -/
abbrev Used := Pos → Bool

/-- Point update of the occupancy matrix. -/
def setUsed (u : Used) (p : Pos) : Used := fun q => if q = p then true else u q

/-- `'abcdefghijklmnopqrstuvwxyz'`. -/
def alphabet : List Char := "abcdefghijklmnopqrstuvwxyz".data

/-- Pro validation result (adds the letters-needed message). -/
structure ProValidation extends Validation where
  needMsg : String

/-- `validateInput` of the pro generator: empty-words and letter-count
errors; spangram-length, title, theme and author warnings; `needMsg`. -/
def validateInput (input : Input) : ProValidation :=
  let cleanWords := cleanWordsOf input.words
  let lettersUsed := lettersUsedOf cleanWords
  let spangram := cleanWords.headD []
  let spRemaining := 6 - spangram.length
  let errors :=
    (if cleanWords.length = 0 then ["ERROR: Can not have empty words."] else []) ++
    (if lettersUsed ≠ CAPACITY then [capacityMsg lettersUsed] else [])
  let warnings :=
    (if 0 < spRemaining then
      ["Spangram needs " ++ toString spRemaining ++ " more letters."] else []) ++
    (if input.title.trim = "" then ["WARNING: Consider modifying the title."] else []) ++
    (if input.theme.trim = "" then ["WARNING: Consider modifying the theme."] else []) ++
    (if input.author.trim = "" then ["WARNING: Consider modifying the author."] else [])
  let needMsg :=
    if lettersUsed < CAPACITY then
      "You need " ++ toString (CAPACITY - lettersUsed) ++ " more."
    else if CAPACITY < lettersUsed then
      "Over by " ++ toString (lettersUsed - CAPACITY) ++ "."
    else "Perfect 48 letters!"
  { errors := errors, warnings := warnings, cleanWords := cleanWords,
    lettersUsed := lettersUsed, needMsg := needMsg }

/-- Random pick from a list (`l[Math.floor(Math.random() * l.length)]`),
consuming one draw. -/
def pick (O : ProO) (l : List Pos) (k : Nat) : Pos × Nat :=
  (l.getD (O.nat k % l.length) (0, 0), k + 1)

/-- The seven spangram strategies, in source order. -/
def spangramStrategies : List String :=
  ["diagonal_sweep", "spiral_path", "zigzag_major", "border_snake",
   "center_explosion", "corner_curve", "random_walk_long"]

/-- `chooseSpangramStrategy()`. -/
def chooseSpangramStrategy (O : ProO) (k : Nat) : String × Nat :=
  (spangramStrategies.getD (O.nat k % spangramStrategies.length) "", k + 1)

/-- The four rotations of `spiralDirs`. -/
def spiralDirs : List (List (Int × Int)) :=
  [[(0, 1), (1, 0), (0, -1), (-1, 0)],
   [(1, 0), (0, -1), (-1, 0), (0, 1)],
   [(0, -1), (-1, 0), (0, 1), (1, 0)],
   [(-1, 0), (0, 1), (1, 0), (0, -1)]]

/-- `getSpangramDirections(strategy, letterIndex, row, col)`; the default
branch (`corner_curve`, `random_walk_long`) draws a fresh shuffle. -/
def getSpangramDirections (O : ProO) (strategy : String) (idx : Nat) (p : Pos)
    (k : Nat) : List (Int × Int) × Nat :=
  if strategy = "diagonal_sweep" then
    ([(-1, -1), (1, 1), (-1, 1), (1, -1), (0, 1), (0, -1), (1, 0), (-1, 0)], k)
  else if strategy = "spiral_path" then
    let so := spiralDirs.getD (idx % 4) []
    (so ++ DIRECTIONS.filter (fun d => !so.contains d), k)
  else if strategy = "zigzag_major" then
    (if idx % 2 = 0 then
      [(-1, 1), (1, -1), (1, 1), (-1, -1), (0, 1), (0, -1), (1, 0), (-1, 0)]
     else [(1, -1), (-1, 1), (-1, -1), (1, 1), (0, -1), (0, 1), (-1, 0), (1, 0)], k)
  else if strategy = "border_snake" then
    (if p.1 = 0 ∨ p.1 = HEIGHT - 1 ∨ p.2 = 0 ∨ p.2 = WIDTH - 1 then
      [(0, 1), (0, -1), (1, 0), (-1, 0), (-1, -1), (-1, 1), (1, -1), (1, 1)]
     else DIRECTIONS, k)
  else if strategy = "center_explosion" then
    let away : List (Int × Int) :=
      [(if p.1 < 4 then (-1, 0) else (1, 0)), (if p.2 < 3 then (0, -1) else (0, 1))]
    (away ++ DIRECTIONS.filter (fun d => !away.contains d), k)
  else (O.dirs k, k + 1)

/-- The four corners. -/
def corners : List Pos := [(0, 0), (0, WIDTH - 1), (HEIGHT - 1, 0), (HEIGHT - 1, WIDTH - 1)]

/-- The edge list of the `spiral_path` start (top row, bottom row, left
column, right column — 28 entries, duplicates included, as built). -/
def spiralEdges : List Pos :=
  ((List.range 6).map fun i => ((0 : Int), (i : Int))) ++
  ((List.range 6).map fun i => (HEIGHT - 1, (i : Int))) ++
  ((List.range 8).map fun i => ((i : Int), (0 : Int))) ++
  ((List.range 8).map fun i => ((i : Int), WIDTH - 1))

/-- The border list of the `border_snake` start (24 entries). -/
def borderCells : List Pos :=
  ((List.range 6).map fun i => ((0 : Int), (i : Int))) ++
  ((List.range 6).map fun i => (HEIGHT - 1, (i : Int))) ++
  ((List.range 6).map fun i => ((i : Int) + 1, (0 : Int))) ++
  ((List.range 6).map fun i => ((i : Int) + 1, WIDTH - 1))

/-- `getStrategicStartPosition(strategy, wordLength)`. -/
def getStrategicStartPosition (O : ProO) (strategy : String) (k : Nat) : Pos × Nat :=
  if strategy = "diagonal_sweep" then pick O corners k
  else if strategy = "spiral_path" then pick O spiralEdges k
  else if strategy = "center_explosion" then
    ((4 + (if O.nat k % 2 = 0 then 1 else -1),
      3 + (if O.nat (k + 1) % 2 = 0 then 1 else -1)), k + 2)
  else if strategy = "border_snake" then pick O borderCells k
  else ((((O.nat k % 8 : Nat) : Int), ((O.nat (k + 1) % 6 : Nat) : Int)), k + 2)

/-- `buildSpangramPath(used, word, start, strategy)`. -/
def buildSpangramPath (O : ProO) (used : Used) (word : List Char) (start : Pos)
    (strategy : String) (k : Nat) : Except Unit (List Pos × Nat) :=
  match dfsRaw (getSpangramDirections O strategy) used word.length (word.length + 1)
      0 k [] start with
  | Except.error e => Except.error e
  | Except.ok (some path, j) => Except.ok (path, j)
  | Except.ok (none, j) => Except.ok ([], j)

/-- Write one word along a path: letters into the grid (spangram flag as
given) and the cells into the occupancy matrix. -/
def writeProWord (grid : GridF) (used : Used) (word : List Char) (path : List Pos)
    (flag : Bool) : GridF × Used :=
  (List.range word.length).foldl
    (fun gu i =>
      let p := path.getD i (0, 0)
      (setCell gu.1 p ⟨some (word.getD i ' '), flag⟩, setUsed gu.2 p))
    (grid, used)

/-- The 200-attempt loop of `placeSpangramVaried`. -/
def placeSpangramVaried (O : ProO) (grid : GridF) (used : Used)
    (spangram : List Char) (strategy : String) :
    Nat → Nat → Except Unit (Option (GridF × Used) × Nat)
  | 0, k => Except.ok (none, k)
  | n + 1, k =>
      let sk := getStrategicStartPosition O strategy k
      match buildSpangramPath O used spangram sk.1 strategy sk.2 with
      | Except.error e => Except.error e
      | Except.ok (path, k2) =>
          if path.length = spangram.length then
            Except.ok (some (writeProWord grid used spangram path true), k2)
          else placeSpangramVaried O grid used spangram strategy n k2

/-- The six word strategies, in source order. -/
def wordStrategies : List String :=
  ["complement_spangram", "corner_fill", "scattered_random", "cluster_break",
   "directional_sweep", "gap_bridging"]

/-- The `do { ... } while (strategy === lastStrategy)` draw of
`generateWordStrategies` (the retry bound only cuts off oracle streams on
which the source would spin forever). -/
def pickStrategyDiff (O : ProO) (last : String) : Nat → Nat → String × Nat
  | 0, k => (wordStrategies.getD (O.nat k % wordStrategies.length) "", k + 1)
  | f + 1, k =>
      let s := wordStrategies.getD (O.nat k % wordStrategies.length) ""
      if s = last then pickStrategyDiff O last f (k + 1) else (s, k + 1)

/-- `generateWordStrategies(wordCount)`. -/
def genStratLoop (O : ProO) : Nat → String → Nat → List String × Nat
  | 0, _, k => ([], k)
  | n + 1, last, k =>
      let sk := pickStrategyDiff O last 100 k
      let rest := genStratLoop O n sk.1 sk.2
      (sk.1 :: rest.1, rest.2)

/-- Number of used 8-neighbours of a cell. -/
def usedNeighborCount (used : Used) (p : Pos) : Nat :=
  (DIRECTIONS.filter fun d =>
    let q := shift p d
    inBoundsB q && used q).length

/-- `getWordStartPosition(used, strategy)`. -/
def getWordStartPosition (O : ProO) (used : Used) (strategy : String) (k : Nat) :
    Option Pos × Nat :=
  let freePositions := allPositions.filter fun p => !used p
  if freePositions.isEmpty then (none, k)
  else if strategy = "corner_fill" then
    let cs := freePositions.filter fun p =>
      (p.1 = 0 ∨ p.1 = HEIGHT - 1) ∧ (p.2 = 0 ∨ p.2 = WIDTH - 1)
    if !cs.isEmpty then
      let r := pick O cs k
      (some r.1, r.2)
    else
      let es := freePositions.filter fun p =>
        p.1 = 0 ∨ p.1 = HEIGHT - 1 ∨ p.2 = 0 ∨ p.2 = WIDTH - 1
      if !es.isEmpty then
        let r := pick O es k
        (some r.1, r.2)
      else (some (freePositions.headD (0, 0)), k)
  else if strategy = "scattered_random" then
    let isolated := freePositions.filter fun p => usedNeighborCount used p ≤ 2
    if !isolated.isEmpty then
      let r := pick O isolated k
      (some r.1, r.2)
    else
      let r := pick O freePositions k
      (some r.1, r.2)
  else
    let r := pick O freePositions k
    (some r.1, r.2)

/-- The four sweep patterns of `getWordDirections`. -/
def sweepPatterns : List (List (Int × Int)) :=
  [[(0, 1), (1, 1), (-1, 1), (1, 0), (-1, 0), (0, -1), (1, -1), (-1, -1)],
   [(1, 0), (1, 1), (1, -1), (0, 1), (0, -1), (-1, 0), (-1, 1), (-1, -1)],
   [(0, -1), (-1, -1), (1, -1), (-1, 0), (1, 0), (0, 1), (-1, 1), (1, 1)],
   [(-1, 0), (-1, -1), (-1, 1), (0, -1), (0, 1), (1, 0), (1, -1), (1, 1)]]

/-- `getWordDirections(strategy, letterIndex)`; shuffles and the sweep
direction are fresh draws at every call. -/
def getWordDirections (O : ProO) (strategy : String) (_idx : Nat) (_p : Pos)
    (k : Nat) : List (Int × Int) × Nat :=
  if strategy = "directional_sweep" then
    (sweepPatterns.getD (O.nat k % 4) [], k + 1)
  else (O.dirs k, k + 1)

/-- `buildWordPath(used, word, start, strategy)` of `part_000`. -/
def buildWordPathPro (O : ProO) (used : Used) (word : List Char) (start : Pos)
    (strategy : String) (k : Nat) : Except Unit (List Pos × Nat) :=
  match dfsRaw (getWordDirections O strategy) used word.length (word.length + 1)
      0 k [] start with
  | Except.error e => Except.error e
  | Except.ok (some path, j) => Except.ok (path, j)
  | Except.ok (none, j) => Except.ok ([], j)

/-- The 300-attempt loop of `placeWordIntelligent`. -/
def placeWordIntelligent (O : ProO) (grid : GridF) (used : Used) (word : List Char)
    (strategy : String) : Nat → Nat → Except Unit (Option (GridF × Used) × Nat)
  | 0, k => Except.ok (none, k)
  | n + 1, k =>
      let sk := getWordStartPosition O used strategy k
      match sk.1 with
      | none => placeWordIntelligent O grid used word strategy n sk.2
      | some startPos =>
          match buildWordPathPro O used word startPos strategy sk.2 with
          | Except.error e => Except.error e
          | Except.ok (path, k2) =>
              if path.length = word.length then
                Except.ok (some (writeProWord grid used word path false), k2)
              else placeWordIntelligent O grid used word strategy n k2

/-- The per-word loop of phase 2. -/
def proWordsLoop (O : ProO) :
    List (List Char × String) → GridF → Used → Nat →
    Except Unit (Option (GridF × Used) × Nat)
  | [], g, u, k => Except.ok (some (g, u), k)
  | ws :: rest, g, u, k =>
      match placeWordIntelligent O g u ws.1 ws.2 300 k with
      | Except.error e => Except.error e
      | Except.ok (none, j) => Except.ok (none, j)
      | Except.ok (some gu, j) => proWordsLoop O rest gu.1 gu.2 j

/-- The index loop of `getRemainingLetters` (an out-of-pool index draws a
random letter; with a validated 48-letter pool every index is in
range). -/
def remLettersLoop (O : ProO) (allLetters : List Char) :
    List Int → Nat → List Char × Nat
  | [], k => ([], k)
  | i :: rest, k =>
      if 0 ≤ i ∧ i < (allLetters.length : Int) then
        let r := remLettersLoop O allLetters rest k
        (allLetters.getD i.toNat 'a' :: r.1, r.2)
      else
        let c := alphabet.getD (O.nat k % 26) 'a'
        let r := remLettersLoop O allLetters rest (k + 1)
        (c :: r.1, r.2)

/-- `getRemainingLetters(words, used)`. -/
def getRemainingLetters (O : ProO) (words : List (List Char)) (used : Used)
    (k : Nat) : List Char × Nat :=
  let allLetters := words.flatten
  let usedCount := (allPositions.filter fun p => used p).length
  let remainingCount := CAPACITY - usedCount
  let idxs := (List.range remainingCount).map fun j =>
    (allLetters.length : Int) - (remainingCount : Int) + (j : Int)
  remLettersLoop O allLetters idxs k

/-- `findAllGaps(used)`. -/
def findAllGaps (used : Used) : List Pos :=
  allPositions.filter fun p => !used p

/-- `getGapPriority(used, gap)` (negated used-neighbour count). -/
def getGapPriority (used : Used) (gap : Pos) : Int :=
  -(usedNeighborCount used gap : Int)

/-- Stable insertion into an ascending-by-key list (the JS engine's
stable comparator sort). -/
def insertByKey (key : Pos → Int) (x : Pos) : List Pos → List Pos
  | [] => [x]
  | y :: ys => if key y ≤ key x then y :: insertByKey key x ys else x :: y :: ys

/-- Stable sort by key, the behaviour of
`gaps.sort((a, b) => pri(a) - pri(b))`. -/
def sortByKey (key : Pos → Int) (l : List Pos) : List Pos :=
  l.foldr (insertByKey key) []

/-- `fillGapsIntelligently(grid, used, remainingLetters)`. -/
def fillGapsIntelligently (grid : GridF) (used : Used) (remainingLetters : List Char) :
    Option (GridF × Used) :=
  let gaps := findAllGaps used
  if gaps.length ≠ remainingLetters.length then none
  else
    let sorted := sortByKey (getGapPriority used) gaps
    some ((sorted.zip remainingLetters).foldl
      (fun gu gc => (setCell gu.1 gc.1 ⟨some gc.2, false⟩, setUsed gu.2 gc.1))
      (grid, used))

/-- `tryProGeneration(words)`. -/
def tryProGeneration (O : ProO) (words : List (List Char)) (k : Nat) :
    Except Unit ((Bool × GridF) × Nat) :=
  let grid := createEmptyGrid
  let used : Used := fun _ => false
  let spangram := words.headD []
  let stk := chooseSpangramStrategy O k
  match placeSpangramVaried O grid used spangram stk.1 200 stk.2 with
  | Except.error e => Except.error e
  | Except.ok (none, k2) => Except.ok ((false, grid), k2)
  | Except.ok (some gu1, k2) =>
      let otherWords := words.drop 1
      let strat := genStratLoop O otherWords.length "" k2
      match proWordsLoop O (otherWords.zip strat.1) gu1.1 gu1.2 strat.2 with
      | Except.error e => Except.error e
      | Except.ok (none, k3) => Except.ok ((false, grid), k3)
      | Except.ok (some gu2, k3) =>
          let rem := getRemainingLetters O words gu2.2 k3
          let afterFill :=
            if rem.1.length ≠ 0 then fillGapsIntelligently gu2.1 gu2.2 rem.1
            else some gu2
          match afterFill with
          | none => Except.ok ((false, gu2.1), rem.2)
          | some gu3 =>
              let totalUsed := (allPositions.filter fun p => gu3.2 p).length
              Except.ok ((totalUsed = CAPACITY, gu3.1), rem.2)

/-- The 100-attempt loop of `generateProGrid`. -/
def proAttemptLoop (O : ProO) (words : List (List Char)) :
    Nat → Nat → Except Unit (Option GridF × Nat)
  | 0, k => Except.ok (none, k)
  | n + 1, k =>
      match tryProGeneration O words k with
      | Except.error e => Except.error e
      | Except.ok ((true, grid), k') => Except.ok (some grid, k')
      | Except.ok ((false, _), k') => proAttemptLoop O words n k'

/-- The terminal error of the pro generator. -/
def terminalMsgPro : String :=
  "Unable to create varied grid with complete coverage. Try different words."

/-- `generateProGrid(input)`.  Unlike the other entry points this one has
no `try/catch`, so a `TypeError` thrown inside an attempt propagates out
(the `Except.error` outcome). -/
def generateProGrid (O : ProO) (input : Input) : Except Unit GenResult :=
  let v := validateInput input
  if v.errors ≠ [] then
    Except.ok
      { grid := createEmptyGrid, errors := v.errors, warnings := v.warnings,
        lettersUsed := v.lettersUsed, spangramRemaining := 0 }
  else
    match proAttemptLoop O v.cleanWords 100 0 with
    | Except.error e => Except.error e
    | Except.ok (some grid, _) =>
        Except.ok
          { grid := grid, errors := [], warnings := v.warnings,
            lettersUsed := v.lettersUsed, spangramRemaining := 0 }
    | Except.ok (none, _) =>
        Except.ok
          { grid := createEmptyGrid, errors := [terminalMsgPro],
            warnings := v.warnings, lettersUsed := v.lettersUsed,
            spangramRemaining := 0 }

end ProGen

namespace AdvGen

/-! ## `src/unnamed/part_004` — `findWordPath`

Its `dfs` is the shared occupancy-before-bounds DFS, with a fresh full
shuffle of `DIRECTIONS` drawn at every call. -/

/-- `findWordPath(used, word, startRow, startCol)`. -/
def findWordPath (dirO : Nat → List (Int × Int)) (used : Pos → Bool)
    (word : List Char) (start : Pos) (k : Nat) : Except Unit (List Pos × Nat) :=
  match dfsRaw (fun _ _ j => (dirO j, j + 1)) used word.length (word.length + 1)
      0 k [] start with
  | Except.error e => Except.error e
  | Except.ok (some path, j) => Except.ok (path, j)
  | Except.ok (none, j) => Except.ok ([], j)

end AdvGen

/-! ## Specification predicates -/

/-- `isWordPath g w ps`: `ps` is a path of in-bounds, pairwise-distinct,
consecutively 8-adjacent cells whose letters in `g` spell `w`. -/
def isWordPath (g : GridF) (w : List Char) (ps : List Pos) : Prop :=
  ps.length = w.length ∧
  (∀ p ∈ ps, inBounds p) ∧
  ps.Nodup ∧
  ps.Chain' adjacent8 ∧
  ∀ i < w.length, (cellAt g (ps.getD i (0, 0))).ch = some (w.getD i ' ')

/-- The flagged-cell set touches two opposite sides of the boundary:
both the top and bottom rows, or both the left and right columns. -/
def touchesOppositeSides (ps : List Pos) : Prop :=
  ((∃ p ∈ ps, p.1 = 0) ∧ (∃ p ∈ ps, p.1 = HEIGHT - 1)) ∨
  ((∃ p ∈ ps, p.2 = 0) ∧ (∃ p ∈ ps, p.2 = WIDTH - 1))

instance (ps : List Pos) : Decidable (touchesOppositeSides ps) := by
  unfold touchesOppositeSides; infer_instance

/-- A cell on the left or top border (where the BFS spanning search
starts). -/
def onStartBorder (p : Pos) : Prop := p.1 = 0 ∨ p.2 = 0

instance (p : Pos) : Decidable (onStartBorder p) := by
  unfold onStartBorder; infer_instance

/-! # Claims -/

/-! ## C4 — capacity validation -/

/-- The data of the capacity message, head-associated. -/
theorem capacityMsg_data (n : Nat) :
    (capacityMsg n).data =
      "Total letters must equal 48. Currently ".data ++ ((toString n).data ++ ['.']) := by
  rw [show (capacityMsg n).data =
      "Total letters must equal 48. Currently ".data ++ (toString n).data ++ ['.'] from rfl]
  rw [List.append_assoc]

/-- Every capacity message starts with `Total`. -/
theorem capacityMsg_take5 (n : Nat) : (capacityMsg n).data.take 5 = "Total".data := by
  rw [capacityMsg_data]
  have hle : (5 : Nat) ≤ ("Total letters must equal 48. Currently ".data).length := by decide
  rw [List.take_append_of_le_length hle]
  decide

/-- The capacity message is never the empty-words error. -/
theorem capacityMsg_ne_empty (n : Nat) :
    capacityMsg n ≠ "ERROR: Can not have empty words." := by
  intro h
  have h2 : (capacityMsg n).data.take 5 =
      ("ERROR: Can not have empty words.").data.take 5 := by rw [h]
  rw [capacityMsg_take5] at h2
  exact absurd h2 (by decide)

/-- The capacity message is never the spangram-length error. -/
theorem capacityMsg_ne_spangram (n : Nat) :
    capacityMsg n ≠ "ERROR: Spangram must be at least 6 letters." := by
  intro h
  have h2 : (capacityMsg n).data.take 5 =
      ("ERROR: Spangram must be at least 6 letters.").data.take 5 := by rw [h]
  rw [capacityMsg_take5] at h2
  exact absurd h2 (by decide)

/-- **C4** — For every input, `validateInput` (in both
`bfsStrandsGenerator.ts` and `connectedGenerator.ts`) adds the error
message `Total letters must equal 48. Currently N.` (`N` the total
length of the sanitized words) exactly when that total differs from 48,
so every input whose sanitized letters do not total 48 is rejected. -/
theorem C4_capacity_validation (input : Input) :
    (capacityMsg (lettersUsedOf (cleanWordsOf input.words)) ∈
        (BfsGen.validateInput input).errors ↔
      lettersUsedOf (cleanWordsOf input.words) ≠ CAPACITY) ∧
    (capacityMsg (lettersUsedOf (cleanWordsOf input.words)) ∈
        (ConnGen.validateInput input).errors ↔
      lettersUsedOf (cleanWordsOf input.words) ≠ CAPACITY) ∧
    (lettersUsedOf (cleanWordsOf input.words) ≠ CAPACITY →
      (BfsGen.validateInput input).errors ≠ [] ∧
        (ConnGen.validateInput input).errors ≠ []) := by
  have hB : (BfsGen.validateInput input).errors =
      (if (cleanWordsOf input.words).length = 0
        then ["ERROR: Can not have empty words."] else []) ++
      (if ((cleanWordsOf input.words).headD []).length < 6
        then ["ERROR: Spangram must be at least 6 letters."] else []) ++
      (if lettersUsedOf (cleanWordsOf input.words) ≠ CAPACITY
        then [capacityMsg (lettersUsedOf (cleanWordsOf input.words))] else []) := rfl
  have hC : (ConnGen.validateInput input).errors =
      (if (cleanWordsOf input.words).length = 0
        then ["ERROR: Can not have empty words."] else []) ++
      (if lettersUsedOf (cleanWordsOf input.words) ≠ CAPACITY
        then [capacityMsg (lettersUsedOf (cleanWordsOf input.words))] else []) := rfl
  rw [hB, hC]
  by_cases h48 : lettersUsedOf (cleanWordsOf input.words) = CAPACITY <;>
    split_ifs <;>
      simp_all [capacityMsg_ne_empty, capacityMsg_ne_spangram]

/-- C4 witness input: the spec's 47-letter scenario. -/
def input47 : Input :=
  ⟨"t", "t", "a", ["stranded", "abcdefghijklmnopqrstuvwxyz", "abcdefghijklm"]⟩

/-- C4 witness: the 47-letter input gets the `Currently 47.` message and
a non-empty error list. -/
theorem C4_capacity_validation_witness :
    capacityMsg 47 ∈ (BfsGen.validateInput input47).errors ∧
      (ConnGen.validateInput input47).errors ≠ [] := by
  have h := C4_capacity_validation input47
  have h47 : lettersUsedOf (cleanWordsOf input47.words) = 47 := by decide
  constructor
  · have hm := h.1.mpr (by rw [h47]; decide)
    rwa [h47] at hm
  · exact (h.2.2 (by rw [h47]; decide)).2

/-! ## C5 — validation failure returns the errors and the empty grid -/

/-- **C5** — For every input on which `validateInput` reports errors,
`generateBFSStrandsGrid` returns exactly those error strings with the
empty placeholder grid (every cell's letter empty, no spangram flag),
and no placement runs (the result is the validation-branch record). -/
theorem C5_validation_failure (input : Input) (O : Nat → BfsGen.AttO)
    (h : (BfsGen.validateInput input).errors ≠ []) :
    BfsGen.generateBFSStrandsGrid O input =
      { grid := createEmptyGrid, errors := (BfsGen.validateInput input).errors,
        warnings := (BfsGen.validateInput input).warnings,
        lettersUsed := (BfsGen.validateInput input).lettersUsed,
        spangramRemaining := 0 } ∧
    ∀ p : Pos, (cellAt createEmptyGrid p).ch = none ∧
      (cellAt createEmptyGrid p).isSpangram = false := by
  refine ⟨?_, fun p => ⟨rfl, rfl⟩⟩
  show (if (BfsGen.validateInput input).errors ≠ [] then _ else _) = _
  rw [if_pos h]

/-- A throwaway oracle for the BFS generator. -/
def anyBfsO : Nat → BfsGen.AttO :=
  fun _ => ⟨fun _ _ => false, true, fun _ l => l, fun _ _ => false, fun _ => 0⟩

/-- C5 witness at the 47-letter input. -/
theorem C5_validation_failure_witness :
    (BfsGen.validateInput input47).errors ≠ [] ∧
      BfsGen.generateBFSStrandsGrid anyBfsO input47 =
        { grid := createEmptyGrid, errors := (BfsGen.validateInput input47).errors,
          warnings := (BfsGen.validateInput input47).warnings,
          lettersUsed := (BfsGen.validateInput input47).lettersUsed,
          spangramRemaining := 0 } := by
  have h : (BfsGen.validateInput input47).errors ≠ [] := by decide
  exact ⟨h, (C5_validation_failure input47 anyBfsO h).1⟩

/-! ## C9 — `spangramRemaining` is hard-coded to 0 -/

/-- C9 counterexample input: spangram `"sun"` (3 letters, needing 3
more), total 47 letters, so validation fails deterministically and the
result is the validation-branch record. -/
def c9Input : Input :=
  ⟨"", "", "", ["sun", "abcdefghijklmnopqrstuvwxyz", "abcdefghijklmnopqr"]⟩

/-- A throwaway oracle for the connected generator. -/
def anyConnO : ConnGen.ConnO := ⟨fun _ => [], fun _ => []⟩

/-- **C9 (counterexample)** — the sanitized first word of `c9Input` is
`"sun"`, which still needs 3 letters to reach the minimum spangram
length of 6, yet the returned `spangramRemaining` is `0 ≠ 3`: the claim
is false at this input. -/
theorem C9_spangramRemaining_counterexample :
    ((cleanWordsOf c9Input.words).headD []).length = 3 ∧
    (ConnGen.generateConnectedGrid anyConnO c9Input).spangramRemaining = 0 ∧
    (ConnGen.generateConnectedGrid anyConnO c9Input).spangramRemaining ≠
      6 - ((cleanWordsOf c9Input.words).headD []).length := by
  refine ⟨by decide, by decide, by decide⟩

/-- **C9 (amended)** — the `spangramRemaining` field of the result is
always 0, for every input and every randomness, in both
`generateBFSStrandsGrid` and `generateConnectedGrid`. -/
theorem C9_spangramRemaining_amended (input : Input) (Ob : Nat → BfsGen.AttO)
    (Oc : ConnGen.ConnO) :
    (BfsGen.generateBFSStrandsGrid Ob input).spangramRemaining = 0 ∧
    (ConnGen.generateConnectedGrid Oc input).spangramRemaining = 0 := by
  constructor
  · simp only [BfsGen.generateBFSStrandsGrid]
    split
    · rfl
    · split <;> rfl
  · simp only [ConnGen.generateConnectedGrid]
    split <;> rfl

/-! ## C10 — the connected generator cannot fail after validation -/

/-- The 50-attempt loop always reports success: any successful attempt is
returned as-is, and the fallback `createSimpleWorkingGrid` always
returns `success = true`. -/
theorem tryConnLoop_success (O : ConnGen.ConnO) (words : List (List Char)) :
    ∀ n attempt k, (ConnGen.tryConnLoop O words n attempt k).1 = true := by
  intro n
  induction n with
  | zero => intro attempt k; rfl
  | succ m ih =>
      intro attempt k
      unfold ConnGen.tryConnLoop
      rcases hA : ConnGen.attemptConnectedGeneration O.dirs words (O.spanPath attempt) k with
        ⟨⟨b, g⟩, k2⟩
      cases b
      · simpa using ih (attempt + 1) k2
      · simp

/-- **C10** — for every input that passes validation and every
randomness, `generateConnectedGrid` returns with an empty error list:
the `Failed to create connected grid` branch is unreachable because
the fallback `createSimpleWorkingGrid` always reports success. -/
theorem C10_connected_always_succeeds (input : Input) (O : ConnGen.ConnO)
    (h : (ConnGen.validateInput input).errors = []) :
    (ConnGen.generateConnectedGrid O input).errors = [] := by
  simp [ConnGen.generateConnectedGrid, h, ConnGen.tryConnectedPlacement,
    tryConnLoop_success]

/-- C10 witness input: a valid 48-letter input. -/
def c10Input : Input :=
  ⟨"t", "t", "a", ["abcdefghijk", "lmnopqrstuvwxyz", "lmnopqrstuvwxyz", "lmnopqr"]⟩

/-- C10 witness: the valid input generates with an empty error list. -/
theorem C10_connected_always_succeeds_witness :
    (ConnGen.validateInput c10Input).errors = [] ∧
      (ConnGen.generateConnectedGrid anyConnO c10Input).errors = [] := by
  have h : (ConnGen.validateInput c10Input).errors = [] := by decide
  exact ⟨h, C10_connected_always_succeeds c10Input anyConnO h⟩

/-! ## C1 — not every word is spelled by a path -/

/-- Membership in the row-major cell list characterizes `inBounds`. -/
theorem inBounds_iff_mem (p : Pos) : inBounds p ↔ p ∈ allPositions := by
  obtain ⟨r, c⟩ := p
  constructor
  · rintro ⟨h1, h2, h3, h4⟩
    unfold HEIGHT at h2
    unfold WIDTH at h4
    dsimp only at h1 h2 h3 h4
    interval_cases r <;> interval_cases c <;> decide
  · intro hp
    fin_cases hp <;> decide

/-- The DP table is correct: `dp[i][j]` holds exactly when some
sub-multiset of the first `i` lengths sums to `j`. -/
theorem dp_iff (lengths : List Nat) :
    ∀ i j, BfsGen.dp lengths i j = true ↔
      ∃ l, List.Sublist l (lengths.take i) ∧ l.sum = j := by
  intro i
  induction i with
  | zero =>
      intro j
      cases j with
      | zero =>
          simp only [BfsGen.dp, List.take_zero, true_iff]
          exact ⟨[], List.Sublist.refl [], rfl⟩
      | succ m =>
          simp only [BfsGen.dp, List.take_zero, Bool.false_eq_true, false_iff]
          rintro ⟨l, hl, hsum⟩
          rw [List.sublist_nil.mp hl] at hsum
          exact absurd hsum (by simp)
  | succ i ih =>
      intro j
      have hrec : BfsGen.dp lengths (i + 1) j =
          (BfsGen.dp lengths i j ||
            (decide (lengths.getD i 0 ≤ j) &&
              BfsGen.dp lengths i (j - lengths.getD i 0))) := rfl
      by_cases hi : i < lengths.length
      · have htake : lengths.take (i + 1) = lengths.take i ++ [lengths.getD i 0] := by
          rw [List.take_succ, List.getD_eq_getElem lengths 0 hi,
            List.getElem?_eq_getElem hi]
          rfl
        rw [hrec, htake]
        constructor
        · intro h
          rcases Bool.or_eq_true _ _ |>.mp h with h1 | h2
          · obtain ⟨l, hl, hsum⟩ := (ih j).mp h1
            exact ⟨l, hl.trans (List.sublist_append_left _ _), hsum⟩
          · rcases Bool.and_eq_true _ _ |>.mp h2 with ⟨hle, hdp⟩
            replace hle := of_decide_eq_true hle
            obtain ⟨l, hl, hsum⟩ := (ih _).mp hdp
            refine ⟨l ++ [lengths.getD i 0], ?_, ?_⟩
            · exact hl.append (List.Sublist.refl _)
            · simp only [List.sum_append, List.sum_cons, List.sum_nil, add_zero, hsum]
              omega
        · rintro ⟨l, hl, hsum⟩
          rcases List.sublist_append_iff.mp hl with ⟨l₁, l₂, rfl, h₁, h₂⟩
          have h₂' : l₂ = [] ∨ l₂ = [lengths.getD i 0] := by
            cases h₂ with
            | cons _ hs => exact Or.inl (List.sublist_nil.mp hs)
            | cons₂ _ hs => exact Or.inr (by rw [List.sublist_nil.mp hs])
          rcases h₂' with rfl | rfl
          · rw [List.append_nil] at hsum
            exact Bool.or_eq_true _ _ |>.mpr (Or.inl ((ih j).mpr ⟨l₁, h₁, hsum⟩))
          · refine Bool.or_eq_true _ _ |>.mpr (Or.inr (Bool.and_eq_true _ _ |>.mpr ⟨?_, ?_⟩))
            · simp only [List.sum_append, List.sum_cons, List.sum_nil, add_zero] at hsum
              exact decide_eq_true (by omega)
            · refine (ih _).mpr ⟨l₁, h₁, ?_⟩
              simp only [List.sum_append, List.sum_cons, List.sum_nil, add_zero] at hsum
              omega
      · have hw : lengths.getD i 0 = 0 := List.getD_eq_default _ _ (by omega)
        have htake : lengths.take (i + 1) = lengths.take i := by
          rw [List.take_of_length_le (by omega), List.take_of_length_le (by omega)]
        rw [hrec, htake, hw]
        have h0 : decide (0 ≤ j) = true := by simp
        rw [Nat.sub_zero, h0, Bool.true_and, Bool.or_self]
        exact ih j

/-- `rightOf` with no removed indices is the identity. -/
theorem rightOf_nil (l : List (List Char)) : BfsGen.rightOf l [] = l := by
  simp [BfsGen.rightOf, List.enum_map_snd]

/-- `take (i+1)` appends the `i`-th word. -/
theorem take_succ_getD (words : List (List Char)) {i : Nat} (hi : i < words.length) :
    words.take (i + 1) = words.take i ++ [words.getD i []] := by
  rw [List.take_succ, List.getD_eq_getElem words [] hi, List.getElem?_eq_getElem hi]
  rfl

/-- Splitting `rightOf` across a final single element (whose enum index is
the prefix length). -/
theorem rightOf_append_single (l : List (List Char)) (a : List Char) (B : List Nat) :
    BfsGen.rightOf (l ++ [a]) B =
      BfsGen.rightOf l B ++ (if B.contains l.length then [] else [a]) := by
  unfold BfsGen.rightOf
  rw [List.enum_append, List.filter_append, List.map_append]
  congr 1
  show (List.filter _ [(l.length, a)]).map _ = _
  by_cases h : l.length ∈ B
  · simp [h]
  · simp [h]

/-- Indices below the prefix length do not see a fresh larger index in
the removal set. -/
theorem rightOf_cons_of_lt (l : List (List Char)) (B : List Nat) (i : Nat)
    (hlen : l.length ≤ i) :
    BfsGen.rightOf l (i :: B) = BfsGen.rightOf l B := by
  unfold BfsGen.rightOf
  congr 1
  refine List.filter_congr ?_
  intro x hx
  have hx1 : x.1 < l.length := List.fst_lt_of_mem_enum hx
  have : x.1 ≠ i := by omega
  simp [List.contains_cons, this]

/-- The backtracking loop of `subsetSum` is correct: whenever `dp[i][j]`
holds, the recovered indices are below `i`, their lengths sum to `j`,
and the selected words together with the unselected words (in index
order) are a permutation of the first `i` words. -/
theorem backtrack_spec (words : List (List Char)) :
    ∀ i j, i ≤ words.length →
      BfsGen.dp (words.map List.length) i j = true →
      (∀ idx ∈ BfsGen.backtrack (words.map List.length) i j, idx < i) ∧
      ((BfsGen.backtrack (words.map List.length) i j).map
          (fun idx => (words.map List.length).getD idx 0)).sum = j ∧
      List.Perm
        ((BfsGen.backtrack (words.map List.length) i j).map
            (fun idx => words.getD idx []) ++
          BfsGen.rightOf (words.take i)
            (BfsGen.backtrack (words.map List.length) i j))
        (words.take i) := by
  intro i
  induction i with
  | zero =>
      intro j _ hdp
      have hj : j = 0 := by
        cases j with
        | zero => rfl
        | succ m => exact absurd hdp (by simp [BfsGen.dp])
      subst hj
      refine ⟨by simp [BfsGen.backtrack], by simp [BfsGen.backtrack], ?_⟩
      show List.Perm (List.map _ [] ++ BfsGen.rightOf [] []) []
      rw [rightOf_nil]
      rfl
  | succ i ih =>
      intro j hle hdp
      have hi : i < words.length := by omega
      have hW : (words.map List.length).getD i 0 = (words.getD i []).length := by
        rw [List.getD_eq_getElem _ 0 (by simpa using hi),
          List.getD_eq_getElem words [] hi]
        simp
      have htake : words.take (i + 1) = words.take i ++ [words.getD i []] :=
        take_succ_getD words hi
      have hlentake : (words.take i).length = i := by
        rw [List.length_take]; omega
      have hrec : BfsGen.backtrack (words.map List.length) (i + 1) j =
          (if j = 0 then []
           else
             if (words.map List.length).getD i 0 ≤ j &&
                 BfsGen.dp (words.map List.length) i (j - (words.map List.length).getD i 0) then
               i :: BfsGen.backtrack (words.map List.length) i
                 (j - (words.map List.length).getD i 0)
             else BfsGen.backtrack (words.map List.length) i j) := rfl
      by_cases hj : j = 0
      · subst hj
        rw [hrec, if_pos rfl]
        refine ⟨by simp, by simp, ?_⟩
        show List.Perm ([] ++ BfsGen.rightOf (words.take (i + 1)) []) _
        rw [rightOf_nil, List.nil_append]
      · rw [hrec, if_neg hj]
        by_cases hsel : ((words.map List.length).getD i 0 ≤ j &&
            BfsGen.dp (words.map List.length) i (j - (words.map List.length).getD i 0)) = true
        · rw [if_pos hsel]
          rcases Bool.and_eq_true _ _ |>.mp hsel with ⟨hle', hdp'⟩
          replace hle' := of_decide_eq_true hle'
          obtain ⟨ihidx, ihsum, ihperm⟩ := ih _ (by omega) hdp'
          refine ⟨?_, ?_, ?_⟩
          · intro idx hidx
            rcases List.mem_cons.mp hidx with rfl | h
            · omega
            · exact Nat.lt_succ_of_lt (ihidx idx h)
          · simp only [List.map_cons, List.sum_cons, ihsum]
            omega
          · rw [htake]
            have h1 : BfsGen.rightOf (words.take i ++ [words.getD i []])
                (i :: BfsGen.backtrack (words.map List.length) i
                  (j - (words.map List.length).getD i 0)) =
                BfsGen.rightOf (words.take i)
                  (BfsGen.backtrack (words.map List.length) i
                    (j - (words.map List.length).getD i 0)) := by
              rw [rightOf_append_single, rightOf_cons_of_lt _ _ _ (le_of_eq hlentake)]
              rw [hlentake]
              simp
            rw [h1, List.map_cons, List.cons_append]
            refine List.Perm.trans (List.Perm.cons _ ihperm) ?_
            exact (List.perm_append_singleton _ _).symm
        · rw [if_neg hsel]
          have hdp0 : BfsGen.dp (words.map List.length) i j = true := by
            have : BfsGen.dp (words.map List.length) (i + 1) j =
                (BfsGen.dp (words.map List.length) i j ||
                  (decide ((words.map List.length).getD i 0 ≤ j) &&
                    BfsGen.dp (words.map List.length) i
                      (j - (words.map List.length).getD i 0))) := rfl
            rw [this] at hdp
            rcases Bool.or_eq_true _ _ |>.mp hdp with h1 | h2
            · exact h1
            · exact absurd h2 (by simpa using hsel)
          obtain ⟨ihidx, ihsum, ihperm⟩ := ih j (by omega) hdp0
          refine ⟨fun idx hidx => Nat.lt_succ_of_lt (ihidx idx hidx), ihsum, ?_⟩
          rw [htake, rightOf_append_single, hlentake]
          have hnc : (BfsGen.backtrack (words.map List.length) i j).contains i = false := by
            rw [List.contains_eq_any_beq]
            rw [List.any_eq_false]
            intro x hx
            have := ihidx x hx
            simp only [beq_iff_eq]
            omega
          rw [hnc, if_neg (by simp), ← List.append_assoc]
          refine List.Perm.trans (List.Perm.append_right _ ihperm) ?_
          rfl

/-- **C7** — For the non-spangram words and the half-total target,
`subsetSum` returns `null` exactly when no subset of the word lengths
sums to the target, and otherwise returns a pair `(left, right)` that
partitions the word list with the left group's letter count equal to
the target. -/
theorem C7_subsetSum_partition (words : List (List Char)) :
    (BfsGen.subsetSum words ((words.map List.length).sum / 2) = none ↔
      ¬ ∃ l, List.Sublist l (words.map List.length) ∧
        l.sum = (words.map List.length).sum / 2) ∧
    (∀ left right,
      BfsGen.subsetSum words ((words.map List.length).sum / 2) = some (left, right) →
        List.Perm (left ++ right) words ∧
        (left.map List.length).sum = (words.map List.length).sum / 2) := by
  have hulen : (words.map List.length).length = words.length := by simp
  have htakeall : (words.map List.length).take words.length = words.map List.length := by
    rw [← hulen, List.take_length]
  constructor
  · unfold BfsGen.subsetSum
    by_cases h : BfsGen.dp (words.map List.length) words.length
        ((words.map List.length).sum / 2) = true
    · rw [if_neg (by simp [h])]
      have hex := (dp_iff (words.map List.length) words.length _).mp h
      rw [htakeall] at hex
      simp only [reduceCtorEq, false_iff, not_not]
      exact hex
    · rw [if_pos (by simpa using h)]
      simp only [true_iff]
      intro hex
      refine h ((dp_iff (words.map List.length) words.length _).mpr ?_)
      rwa [htakeall]
  · intro left right hsome
    unfold BfsGen.subsetSum at hsome
    by_cases h : BfsGen.dp (words.map List.length) words.length
        ((words.map List.length).sum / 2) = true
    · rw [if_neg (by simp [h])] at hsome
      obtain ⟨-, hsum, hperm⟩ :=
        backtrack_spec words words.length _ le_rfl h
      rw [List.take_length] at hperm
      injection hsome with hpair
      injection hpair with hleft hright
      constructor
      · rw [← hleft, ← hright]
        exact hperm
      · rw [← hleft, List.map_map]
        have hmap : List.map (List.length ∘ fun idx => words.getD idx [])
              (BfsGen.backtrack (words.map List.length) words.length
                ((words.map List.length).sum / 2)) =
            List.map (fun idx => (words.map List.length).getD idx 0)
              (BfsGen.backtrack (words.map List.length) words.length
                ((words.map List.length).sum / 2)) := by
          refine List.map_congr_left ?_
          intro idx hidx
          obtain ⟨hidx', -, -⟩ := backtrack_spec words words.length _ le_rfl h
          have hlt := hidx' idx hidx
          have hlt2 : idx < (words.map List.length).length := by
            rw [List.length_map]; omega
          simp only [Function.comp_apply]
          rw [List.getD_eq_getElem words [] (by omega), List.getD_eq_getElem _ 0 hlt2]
          simp
        rw [hmap]
        exact hsum
    · rw [if_pos (by simpa using h)] at hsome
      exact absurd hsome (by simp)

/-- C7 witness: `["ab", "cd"]` with target 2 selects `["cd"]` on the
left (the backtracking walks indices downward), a partition with left
letter count 2. -/
theorem C7_subsetSum_partition_witness :
    BfsGen.subsetSum [['a', 'b'], ['c', 'd']] 2 = some ([['c', 'd']], [['a', 'b']]) ∧
    List.Perm ([['c', 'd']] ++ [['a', 'b']]) [['a', 'b'], ['c', 'd']] ∧
    ([['c', 'd']].map List.length).sum = 2 := by
  have h := (C7_subsetSum_partition [['a', 'b'], ['c', 'd']]).2
      [['c', 'd']] [['a', 'b']] (by decide)
  exact ⟨by decide, h.1, h.2⟩

/-! ## C8 — the DFS path finders -/

/-- Stepping by a direction-table offset gives an 8-adjacent distinct
cell. -/
theorem adjacent8_shift (p : Pos) {d : Int × Int} (hd : d ∈ DIRECTIONS) :
    adjacent8 p (shift p d) := by
  fin_cases hd <;>
    exact ⟨fun heq => by simp [shift, Prod.ext_iff] at heq,
      by simp only [shift]; omega, by simp only [shift]; omega⟩

/-- If the direction loop of `buildWordPath`'s DFS succeeds, some listed
direction leads to an in-bounds neighbour on which the child search
succeeded. -/
theorem firstChild_some {child : Pos → Nat → Option (List Pos) × Nat} {p : Pos} :
    ∀ (ds : List (Int × Int)) (k : Nat) {suffix : List Pos} {j : Nat},
      ConnGen.firstChild child p ds k = (some suffix, j) →
      ∃ d ∈ ds, ∃ k₀, inBoundsB (shift p d) = true ∧
        child (shift p d) k₀ = (some suffix, j) := by
  intro ds
  induction ds with
  | nil => intro k suffix j h; exact absurd h (by simp [ConnGen.firstChild])
  | cons d rest ihd =>
      intro k suffix j h
      rw [ConnGen.firstChild] at h
      by_cases hb : inBoundsB (shift p d) = true
      · rw [if_pos hb] at h
        rcases hc : child (shift p d) k with ⟨res, j'⟩
        rw [hc] at h
        cases res with
        | some s =>
            obtain ⟨hs, hj⟩ := Prod.mk.injEq _ _ _ _ ▸ h
            injection hs with hs
            exact ⟨d, List.mem_cons_self d rest, k,
              hb, by rw [hc, hs, hj]⟩
        | none =>
            obtain ⟨d', hd', k₀, h1, h2⟩ := ihd j' h
            exact ⟨d', List.mem_cons_of_mem d hd', k₀, h1, h2⟩
      · rw [if_neg hb] at h
        obtain ⟨d', hd', k₀, h1, h2⟩ := ihd k h
        exact ⟨d', List.mem_cons_of_mem d hd', k₀, h1, h2⟩

/-- Correctness of the DFS of `connectedGenerator.ts`'s `buildWordPath`:
a successful search returns a path of exactly `fuel` fresh, in-bounds,
unoccupied, pairwise-distinct cells, chained by 8-adjacency, starting at
the current cell. -/
theorem dfsConn_spec (o : Nat → List (Int × Int)) (used : Pos → Bool)
    (hO : ∀ n, ∀ d ∈ o n, d ∈ DIRECTIONS) :
    ∀ (fuel k : Nat) (visited : List Pos) (p : Pos) (ps : List Pos) (k' : Nat),
      ConnGen.dfsConn o used fuel k visited p = (some ps, k') →
      ps.length = fuel ∧
      (∀ q ∈ ps, inBounds q ∧ used q = false ∧ q ∉ visited) ∧
      ps.Nodup ∧ ps.Chain' adjacent8 ∧ (fuel ≠ 0 → ps.head? = some p) := by
  intro fuel
  induction fuel with
  | zero =>
      intro k visited p ps k' h
      rw [show ConnGen.dfsConn o used 0 k visited p = (some [], k) from rfl] at h
      obtain ⟨h1, -⟩ := Prod.mk.injEq _ _ _ _ ▸ h
      injection h1 with h1
      subst h1
      exact ⟨rfl, by simp, List.nodup_nil, List.chain'_nil, by simp⟩
  | succ f ih =>
      intro k visited p ps k' h
      rw [show ConnGen.dfsConn o used (f + 1) k visited p =
          (if visited.contains p || used p || !inBoundsB p then ((none : Option (List Pos)), k)
           else if f = 0 then (some [p], k)
           else
             match ConnGen.firstChild
                 (fun q j => ConnGen.dfsConn o used f j (p :: visited) q) p (o k) (k + 1) with
             | (some suffix, j) => (some (p :: suffix), j)
             | (none, j) => (none, j)) from rfl] at h
      by_cases hg : (visited.contains p || used p || !inBoundsB p) = true
      · rw [if_pos hg] at h
        exact absurd h (by simp)
      · rw [if_neg hg] at h
        simp only [Bool.or_eq_true, not_or, Bool.not_eq_true] at hg
        obtain ⟨⟨hvis, husz⟩, hbz⟩ := hg
        have hvis' : p ∉ visited := by
          intro hmem
          rw [List.contains_eq_any_beq] at hvis
          rw [List.any_eq_false] at hvis
          exact absurd (by simp : (p == p) = true) (by simpa using hvis p hmem)
        have hinb : inBounds p := by
          have : inBoundsB p = true := by
            cases hb2 : inBoundsB p with
            | true => rfl
            | false => rw [hb2] at hbz; exact absurd hbz (by simp)
          simpa [inBoundsB] using this
        by_cases hf0 : f = 0
        · subst hf0
          rw [if_pos rfl] at h
          obtain ⟨h1, -⟩ := Prod.mk.injEq _ _ _ _ ▸ h
          injection h1 with h1
          subst h1
          refine ⟨rfl, ?_, by simp, by simp, by simp⟩
          intro q hq
          rw [List.mem_singleton.mp hq]
          exact ⟨hinb, husz, hvis'⟩
        · rw [if_neg hf0] at h
          rcases hfc : ConnGen.firstChild
              (fun q j => ConnGen.dfsConn o used f j (p :: visited) q) p (o k) (k + 1) with
            ⟨res, j⟩
          rw [hfc] at h
          cases res with
          | none => exact absurd h (by simp)
          | some suffix =>
              obtain ⟨h1, h2⟩ := Prod.mk.injEq _ _ _ _ ▸ h
              injection h1 with h1
              subst h2
              rw [← h1]
              obtain ⟨d, hd, k₀, hbq, hchild⟩ := firstChild_some (o k) (k + 1) hfc
              obtain ⟨hlen, hmem, hnodup, hchain, hhead⟩ :=
                ih k₀ (p :: visited) (shift p d) suffix j hchild
              have hpns : p ∉ suffix := by
                intro hmem2
                exact absurd (List.mem_cons_self p visited) (hmem p hmem2).2.2
              refine ⟨by simp [hlen], ?_, ?_, ?_, by simp⟩
              · intro q hq
                rcases List.mem_cons.mp hq with rfl | hq2
                · exact ⟨hinb, husz, hvis'⟩
                · obtain ⟨a, b, c⟩ := hmem q hq2
                  exact ⟨a, b, fun hc => c (List.mem_cons_of_mem p hc)⟩
              · exact List.nodup_cons.mpr ⟨hpns, hnodup⟩
              · refine List.chain'_cons'.mpr ⟨?_, hchain⟩
                intro q hq
                rw [hhead hf0] at hq
                have hq2 : shift p d = q := by simpa using hq
                rw [← hq2]
                exact adjacent8_shift p (hO k d hd)

/-- **C8** — first part: `buildWordPath` of `connectedGenerator.ts`
returns either a path of exactly the word's length of in-bounds,
unoccupied, pairwise-distinct, consecutively 8-adjacent cells starting
at the given start cell, or the empty path.  Second part:
`findWordPath` of `part_004` instead *throws* (reads `used[-1][-1]`)
when its freshly shuffled direction order probes above the top row —
here on an empty grid, the word `"ab"` and start `(0, 0)`. -/
theorem C8_path_finder :
    (∀ (o : Nat → List (Int × Int)) (used : Pos → Bool) (word : List Char)
        (start : Pos) (k : Nat),
      (∀ n, ∀ d ∈ o n, d ∈ DIRECTIONS) →
      (ConnGen.buildWordPath o used word start k).1 = [] ∨
      ((ConnGen.buildWordPath o used word start k).1.length = word.length ∧
        (∀ p ∈ (ConnGen.buildWordPath o used word start k).1, inBounds p) ∧
        (∀ p ∈ (ConnGen.buildWordPath o used word start k).1, used p = false) ∧
        (ConnGen.buildWordPath o used word start k).1.Nodup ∧
        (ConnGen.buildWordPath o used word start k).1.Chain' adjacent8 ∧
        (word.length ≠ 0 →
          (ConnGen.buildWordPath o used word start k).1.head? = some start))) ∧
    AdvGen.findWordPath (fun _ => DIRECTIONS) (fun _ => false) ['a', 'b'] (0, 0) 0 =
      Except.error () := by
  constructor
  · intro o used word start k hO
    unfold ConnGen.buildWordPath
    by_cases hs : inBoundsB start = true
    · rw [if_pos hs]
      rcases hd : ConnGen.dfsConn o used word.length k [] start with ⟨res, j⟩
      cases res with
      | none => exact Or.inl rfl
      | some ps =>
          obtain ⟨hlen, hmem, hnodup, hchain, hhead⟩ :=
            dfsConn_spec o used hO word.length k [] start ps j hd
          exact Or.inr ⟨hlen, fun p hp => (hmem p hp).1, fun p hp => (hmem p hp).2.1,
            hnodup, hchain, hhead⟩
    · rw [if_neg hs]
      exact Or.inl rfl
  · rfl

/-- C8 witness: the `buildWordPath` part applied to the trivial shuffle
stream, the empty occupancy, the word `"abc"` and start `(0, 0)`. -/
theorem C8_path_finder_witness :
    (∀ n, ∀ d ∈ ((fun _ => DIRECTIONS) : Nat → List (Int × Int)) n, d ∈ DIRECTIONS) ∧
    ((ConnGen.buildWordPath (fun _ => DIRECTIONS) (fun _ => false)
        ['a', 'b', 'c'] (0, 0) 0).1 = [] ∨
      ((ConnGen.buildWordPath (fun _ => DIRECTIONS) (fun _ => false)
          ['a', 'b', 'c'] (0, 0) 0).1.length = (['a', 'b', 'c'] : List Char).length ∧
        (∀ p ∈ (ConnGen.buildWordPath (fun _ => DIRECTIONS) (fun _ => false)
          ['a', 'b', 'c'] (0, 0) 0).1, inBounds p) ∧
        (∀ p ∈ (ConnGen.buildWordPath (fun _ => DIRECTIONS) (fun _ => false)
          ['a', 'b', 'c'] (0, 0) 0).1, (fun _ => false : Pos → Bool) p = false) ∧
        (ConnGen.buildWordPath (fun _ => DIRECTIONS) (fun _ => false)
          ['a', 'b', 'c'] (0, 0) 0).1.Nodup ∧
        (ConnGen.buildWordPath (fun _ => DIRECTIONS) (fun _ => false)
          ['a', 'b', 'c'] (0, 0) 0).1.Chain' adjacent8 ∧
        ((['a', 'b', 'c'] : List Char).length ≠ 0 →
          (ConnGen.buildWordPath (fun _ => DIRECTIONS) (fun _ => false)
            ['a', 'b', 'c'] (0, 0) 0).1.head? = some (0, 0)))) :=
  ⟨fun _ d hd => hd,
    C8_path_finder.1 (fun _ => DIRECTIONS) (fun _ => false) ['a', 'b', 'c'] (0, 0) 0
      (fun _ d hd => hd)⟩

/-! ## C6 — the retry controllers -/

/-- The 10-attempt loop returns either the grid of a successful attempt
with its index inside the window, or `none`. -/
theorem bfsAttemptLoop_cases (O : Nat → BfsGen.AttO) (words : List (List Char)) :
    ∀ n a,
      (∃ g, BfsGen.bfsAttemptLoop O words n a = some g ∧
        ∃ k, a ≤ k ∧ k < a + n ∧ BfsGen.runBFSStrandsAlgorithm (O k) words = (true, g)) ∨
      BfsGen.bfsAttemptLoop O words n a = none := by
  intro n
  induction n with
  | zero => intro a; exact Or.inr rfl
  | succ m ih =>
      intro a
      rw [show BfsGen.bfsAttemptLoop O words (m + 1) a =
          (match BfsGen.runBFSStrandsAlgorithm (O a) words with
           | (true, grid) => some grid
           | (false, _) => BfsGen.bfsAttemptLoop O words m (a + 1)) from rfl]
      rcases hr : BfsGen.runBFSStrandsAlgorithm (O a) words with ⟨b, g⟩
      cases b
      · rcases ih (a + 1) with ⟨g', hg', k, hk1, hk2, hk3⟩ | hnone
        · exact Or.inl ⟨g', hg', k, by omega, by omega, hk3⟩
        · exact Or.inr hnone
      · exact Or.inl ⟨g, rfl, a, le_rfl, by omega, hr⟩

/-- The 100-attempt loop of the pro generator either propagates a crash
or returns a grid / `none`. -/
theorem proAttemptLoop_cases (O : ProGen.ProO) (words : List (List Char)) :
    ∀ n k,
      ProGen.proAttemptLoop O words n k = Except.error () ∨
      (∃ g k2, ProGen.proAttemptLoop O words n k = Except.ok (some g, k2)) ∨
      (∃ k2, ProGen.proAttemptLoop O words n k = Except.ok (none, k2)) := by
  intro n
  induction n with
  | zero => intro k; exact Or.inr (Or.inr ⟨k, rfl⟩)
  | succ m ih =>
      intro k
      rw [show ProGen.proAttemptLoop O words (m + 1) k =
          (match ProGen.tryProGeneration O words k with
           | Except.error e => Except.error e
           | Except.ok ((true, grid), k2) => Except.ok (some grid, k2)
           | Except.ok ((false, _), k2) => ProGen.proAttemptLoop O words m k2) from rfl]
      rcases ht : ProGen.tryProGeneration O words k with e | ⟨⟨b, g⟩, k2⟩
      · cases e; exact Or.inl rfl
      · cases b
        · exact ih k2
        · exact Or.inr (Or.inl ⟨g, k2, rfl⟩)

/-- The failing input for the pro generator (valid 48 letters). -/
def proCrashInput : Input :=
  ⟨"t", "t", "a",
    ["strand", "puzzle", "letter", "branch", "garden", "window", "bottle", "candle"]⟩

/-- The crashing randomness: the first draw selects the
`diagonal_sweep` strategy, the second the `(0,0)` corner; the DFS then
immediately probes `(-1,-1)` and reads `used[-1][-1]`. -/
def proCrashO : ProGen.ProO := ⟨fun _ => 0, fun _ => DIRECTIONS⟩

/-- **C6** — the BFS generator always returns the validation errors, or
a success produced by one of its 10 attempts, or its terminal error; the
pro generator, within its 100-attempt bound, either crashes (its
attempt body can throw) or likewise returns one of the three outcomes —
and it does crash at the concrete input/randomness below, instead of
returning a result as the claim states. -/
theorem C6_retry_controller :
    (∀ (input : Input) (O : Nat → BfsGen.AttO),
      (BfsGen.generateBFSStrandsGrid O input).errors = (BfsGen.validateInput input).errors ∨
      ((BfsGen.generateBFSStrandsGrid O input).errors = [] ∧
        ∃ k, k < 10 ∧
          (BfsGen.runBFSStrandsAlgorithm (O k) (BfsGen.validateInput input).cleanWords).1 =
            true) ∨
      (BfsGen.generateBFSStrandsGrid O input).errors = [BfsGen.terminalMsg]) ∧
    (∀ (input : Input) (O : ProGen.ProO),
      ProGen.generateProGrid O input = Except.error () ∨
      ∃ r, ProGen.generateProGrid O input = Except.ok r ∧
        (r.errors = (ProGen.validateInput input).errors ∨ r.errors = [] ∨
          r.errors = [ProGen.terminalMsgPro])) ∧
    ProGen.generateProGrid proCrashO proCrashInput = Except.error () := by
  refine ⟨?_, ?_, rfl⟩
  · intro input O
    unfold BfsGen.generateBFSStrandsGrid
    by_cases hv : (BfsGen.validateInput input).errors ≠ []
    · rw [if_pos hv]
      exact Or.inl rfl
    · rw [if_neg hv]
      rcases bfsAttemptLoop_cases O (BfsGen.validateInput input).cleanWords 10 0 with
        ⟨g, hg, k, -, hk2, hk3⟩ | hnone
      · rw [hg]
        refine Or.inr (Or.inl ⟨rfl, k, by omega, ?_⟩)
        rw [hk3]
      · rw [hnone]
        exact Or.inr (Or.inr rfl)
  · intro input O
    unfold ProGen.generateProGrid
    by_cases hv : (ProGen.validateInput input).errors ≠ []
    · rw [if_pos hv]
      exact Or.inr ⟨_, rfl, Or.inl rfl⟩
    · rw [if_neg hv]
      rcases proAttemptLoop_cases O (ProGen.validateInput input).cleanWords 100 0 with
        herr | ⟨g, k2, hok⟩ | ⟨k2, hok⟩
      · rw [herr]
        exact Or.inl rfl
      · rw [hok]
        exact Or.inr ⟨_, rfl, Or.inr (Or.inl rfl)⟩
      · rw [hok]
        exact Or.inr ⟨_, rfl, Or.inr (Or.inr rfl)⟩

/-! ## C3 — full coverage on success -/

/-- The final fill loop leaves no listed cell empty (and preserves
non-empty cells). -/
theorem fillRandom_aux (fillIdx : Pos → Nat) :
    ∀ (l : List Pos) (g : GridF) (p : Pos),
      ((cellAt g p).ch ≠ none ∨ p ∈ l) →
      (cellAt (l.foldl
        (fun g q =>
          if (cellAt g q).ch = none then
            setCell g q ⟨some (BfsGen.alphabet.getD (fillIdx q % 26) 'a'), false⟩
          else g) g) p).ch ≠ none := by
  intro l
  induction l with
  | nil =>
      intro g p h
      rcases h with h | h
      · exact h
      · exact absurd h (List.not_mem_nil p)
  | cons q rest ih =>
      intro g p h
      rw [List.foldl_cons]
      apply ih
      rcases h with hne | hmem
      · left
        by_cases hq : (cellAt g q).ch = none
        · rw [if_pos hq, cellAt_setCell]
          by_cases hpq : p = q
          · rw [if_pos hpq]; simp
          · rw [if_neg hpq]; exact hne
        · rw [if_neg hq]; exact hne
      · rcases List.mem_cons.mp hmem with rfl | hrest
        · left
          by_cases hq : (cellAt g p).ch = none
          · rw [if_pos hq, cellAt_setCell, if_pos rfl]
            simp
          · rw [if_neg hq]; exact hq
        · right; exact hrest

/-- A successful BFS-algorithm attempt returns a grid with every one of
the 48 cells holding a letter. -/
theorem runAlg_success_full (O : BfsGen.AttO) (words : List (List Char)) (g : GridF) :
    BfsGen.runBFSStrandsAlgorithm O words = (true, g) →
    ∀ p ∈ allPositions, (cellAt g p).ch ≠ none := by
  intro h p hp
  simp only [BfsGen.runBFSStrandsAlgorithm] at h
  rcases hsp : BfsGen.placeSpangram (BfsGen.gridNeighbors O.dropDiag) O.horiz
      (words.headD []) with - | spath
  · rw [hsp] at h
    exact absurd (congrArg Prod.fst h) (by simp)
  · rw [hsp] at h
    dsimp only at h
    rcases hss : BfsGen.subsetSum (words.drop 1)
        (((words.drop 1).map List.length).sum / 2) with - | ⟨left, right⟩
    · rw [hss] at h
      exact absurd (congrArg Prod.fst h) (by simp)
    · rw [hss] at h
      dsimp only at h
      rcases hpl : BfsGen.placeWordsLoop (BfsGen.gridNeighbors O.dropDiag) O.timer
          (O.mix false left ++ O.mix true right) 0
          (allPositions.filter fun p => !spath.contains p) [] with - | wps
      · rw [hpl] at h
        exact absurd (congrArg Prod.fst h) (by simp)
      · rw [hpl] at h
        dsimp only at h
        injection h with h1 h2
        rw [← h2]
        exact fillRandom_aux O.fillIdx allPositions _ p (Or.inr hp)

/-- The pro-generator coverage invariant: a used cell always holds a
letter. -/
def ProInv (g : GridF) (u : ProGen.Used) : Prop :=
  ∀ p : Pos, u p = true → (cellAt g p).ch ≠ none

/-- Writing a word along a path (letters and occupancy in lockstep)
preserves the invariant. -/
theorem writeProWord_inv (g : GridF) (u : ProGen.Used) (w : List Char)
    (path : List Pos) (flag : Bool) (h : ProInv g u) :
    ProInv (ProGen.writeProWord g u w path flag).1 (ProGen.writeProWord g u w path flag).2 := by
  unfold ProGen.writeProWord
  generalize List.range w.length = l
  induction l generalizing g u with
  | nil => exact h
  | cons i rest ih =>
      rw [List.foldl_cons]
      apply ih
      intro p hp
      unfold ProGen.setUsed at hp
      rw [cellAt_setCell]
      by_cases hpq : p = path.getD i (0, 0)
      · rw [if_pos hpq]; simp
      · rw [if_neg hpq]
        rw [if_neg hpq] at hp
        exact h p hp

/-- `placeSpangramVaried` preserves the invariant. -/
theorem placeSpangramVaried_inv (O : ProGen.ProO) (grid : GridF) (used : ProGen.Used)
    (spangram : List Char) (strategy : String) (h : ProInv grid used) :
    ∀ n k gu k2,
      ProGen.placeSpangramVaried O grid used spangram strategy n k =
        Except.ok (some gu, k2) →
      ProInv gu.1 gu.2 := by
  intro n
  induction n with
  | zero => intro k gu k2 hok; exact absurd hok (by simp [ProGen.placeSpangramVaried])
  | succ m ih =>
      intro k gu k2 hok
      rw [show ProGen.placeSpangramVaried O grid used spangram strategy (m + 1) k =
          (match ProGen.buildSpangramPath O used spangram
              (ProGen.getStrategicStartPosition O strategy k).1 strategy
              (ProGen.getStrategicStartPosition O strategy k).2 with
           | Except.error e => Except.error e
           | Except.ok (path, j) =>
               if path.length = spangram.length then
                 Except.ok (some (ProGen.writeProWord grid used spangram path true), j)
               else ProGen.placeSpangramVaried O grid used spangram strategy m j) from rfl]
        at hok
      rcases hb : ProGen.buildSpangramPath O used spangram
          (ProGen.getStrategicStartPosition O strategy k).1 strategy
          (ProGen.getStrategicStartPosition O strategy k).2 with e | ⟨path, j⟩
      · rw [hb] at hok
        exact absurd hok (by simp)
      · rw [hb] at hok
        dsimp only at hok
        by_cases hl : path.length = spangram.length
        · rw [if_pos hl] at hok
          obtain ⟨h1, -⟩ := Prod.mk.injEq _ _ _ _ ▸ Except.ok.injEq _ _ ▸ hok
          injection h1 with h1
          rw [← h1]
          exact writeProWord_inv grid used spangram path true h
        · rw [if_neg hl] at hok
          exact ih j gu k2 hok

/-- `placeWordIntelligent` preserves the invariant. -/
theorem placeWordIntelligent_inv (O : ProGen.ProO) (grid : GridF) (used : ProGen.Used)
    (word : List Char) (strategy : String) (h : ProInv grid used) :
    ∀ n k gu k2,
      ProGen.placeWordIntelligent O grid used word strategy n k = Except.ok (some gu, k2) →
      ProInv gu.1 gu.2 := by
  intro n
  induction n with
  | zero => intro k gu k2 hok; exact absurd hok (by simp [ProGen.placeWordIntelligent])
  | succ m ih =>
      intro k gu k2 hok
      rw [show ProGen.placeWordIntelligent O grid used word strategy (m + 1) k =
          (match (ProGen.getWordStartPosition O used strategy k).1 with
           | none => ProGen.placeWordIntelligent O grid used word strategy m
               (ProGen.getWordStartPosition O used strategy k).2
           | some startPos =>
               match ProGen.buildWordPathPro O used word startPos strategy
                   (ProGen.getWordStartPosition O used strategy k).2 with
               | Except.error e => Except.error e
               | Except.ok (path, j) =>
                   if path.length = word.length then
                     Except.ok (some (ProGen.writeProWord grid used word path false), j)
                   else ProGen.placeWordIntelligent O grid used word strategy m j) from rfl]
        at hok
      rcases hs : (ProGen.getWordStartPosition O used strategy k).1 with - | startPos
      · rw [hs] at hok
        exact ih _ gu k2 hok
      · rw [hs] at hok
        dsimp only at hok
        rcases hb : ProGen.buildWordPathPro O used word startPos strategy
            (ProGen.getWordStartPosition O used strategy k).2 with e | ⟨path, j⟩
        · rw [hb] at hok
          exact absurd hok (by simp)
        · rw [hb] at hok
          dsimp only at hok
          by_cases hl : path.length = word.length
          · rw [if_pos hl] at hok
            obtain ⟨h1, -⟩ := Prod.mk.injEq _ _ _ _ ▸ Except.ok.injEq _ _ ▸ hok
            injection h1 with h1
            rw [← h1]
            exact writeProWord_inv grid used word path false h
          · rw [if_neg hl] at hok
            exact ih j gu k2 hok

/-- The word loop preserves the invariant. -/
theorem proWordsLoop_inv (O : ProGen.ProO) :
    ∀ (ws : List (List Char × String)) (g : GridF) (u : ProGen.Used) (k : Nat)
      (gu : GridF × ProGen.Used) (k2 : Nat),
      ProInv g u →
      ProGen.proWordsLoop O ws g u k = Except.ok (some gu, k2) →
      ProInv gu.1 gu.2 := by
  intro ws
  induction ws with
  | nil =>
      intro g u k gu k2 h hok
      obtain ⟨h1, -⟩ := Prod.mk.injEq _ _ _ _ ▸ Except.ok.injEq _ _ ▸ hok
      injection h1 with h1
      rw [← h1]
      exact h
  | cons wsd rest ih =>
      intro g u k gu k2 h hok
      rw [show ProGen.proWordsLoop O (wsd :: rest) g u k =
          (match ProGen.placeWordIntelligent O g u wsd.1 wsd.2 300 k with
           | Except.error e => Except.error e
           | Except.ok (none, j) => Except.ok (none, j)
           | Except.ok (some gu1, j) => ProGen.proWordsLoop O rest gu1.1 gu1.2 j) from rfl]
        at hok
      rcases hp : ProGen.placeWordIntelligent O g u wsd.1 wsd.2 300 k with e | ⟨res, j⟩
      · rw [hp] at hok
        exact absurd hok (by simp)
      · rw [hp] at hok
        cases res with
        | none =>
            dsimp only at hok
            obtain ⟨h1, -⟩ := Prod.mk.injEq _ _ _ _ ▸ Except.ok.injEq _ _ ▸ hok
            exact absurd h1 (by simp)
        | some gu1 =>
            dsimp only at hok
            have hinv1 : ProInv gu1.1 gu1.2 :=
              placeWordIntelligent_inv O g u wsd.1 wsd.2 h 300 k gu1 j hp
            exact ih gu1.1 gu1.2 j gu k2 hinv1 hok

/-- Gap filling preserves the invariant. -/
theorem fillGaps_inv (g : GridF) (u : ProGen.Used) (letters : List Char)
    (gu : GridF × ProGen.Used) (h : ProInv g u)
    (hok : ProGen.fillGapsIntelligently g u letters = some gu) :
    ProInv gu.1 gu.2 := by
  unfold ProGen.fillGapsIntelligently at hok
  by_cases hlen : (ProGen.findAllGaps u).length ≠ letters.length
  · rw [if_pos hlen] at hok
    exact absurd hok (by simp)
  · rw [if_neg hlen] at hok
    injection hok with hok
    rw [← hok]
    generalize (ProGen.sortByKey (ProGen.getGapPriority u) (ProGen.findAllGaps u)).zip
      letters = pairs
    clear hok hlen
    induction pairs generalizing g u with
    | nil => exact h
    | cons gc rest ih =>
        rw [List.foldl_cons]
        apply ih
        intro p hp
        unfold ProGen.setUsed at hp
        rw [cellAt_setCell]
        by_cases hpq : p = gc.1
        · rw [if_pos hpq]; simp
        · rw [if_neg hpq]
          rw [if_neg hpq] at hp
          exact h p hp

/-- Full filter retention: if the filtered list keeps the whole length,
the predicate holds on every member. -/
theorem filter_full {α : Type} (f : α → Bool) (l : List α)
    (h : (l.filter f).length = l.length) : ∀ x ∈ l, f x = true := by
  induction l with
  | nil => intro x hx; exact absurd hx (List.not_mem_nil x)
  | cons a rest ih =>
      intro x hx
      by_cases ha : f a = true
      · rw [List.filter_cons_of_pos ha] at h
        rcases List.mem_cons.mp hx with rfl | hx2
        · exact ha
        · exact ih (by simpa using h) x hx2
      · rw [List.filter_cons_of_neg (by simpa using ha)] at h
        have hle := List.length_filter_le f rest
        simp only [List.length_cons] at h
        omega

/-- A successful pro attempt returns a full grid. -/
theorem tryPro_success_full (O : ProGen.ProO) (words : List (List Char))
    (g : GridF) (k k2 : Nat)
    (h : ProGen.tryProGeneration O words k = Except.ok ((true, g), k2)) :
    ∀ p ∈ allPositions, (cellAt g p).ch ≠ none := by
  intro p hp
  simp only [ProGen.tryProGeneration] at h
  rcases hsp : ProGen.placeSpangramVaried O createEmptyGrid (fun _ => false)
      (words.headD []) (ProGen.chooseSpangramStrategy O k).1 200
      (ProGen.chooseSpangramStrategy O k).2 with e | ⟨res1, j1⟩
  · rw [hsp] at h
    exact absurd h (by simp)
  · rw [hsp] at h
    cases res1 with
    | none =>
        dsimp only at h
        exact absurd h (by simp)
    | some gu1 =>
        dsimp only at h
        have hinv1 : ProInv gu1.1 gu1.2 :=
          placeSpangramVaried_inv O createEmptyGrid (fun _ => false) (words.headD [])
            (ProGen.chooseSpangramStrategy O k).1 (fun q hq => by simp at hq) 200
            (ProGen.chooseSpangramStrategy O k).2 gu1 j1 hsp
        rcases hwl : ProGen.proWordsLoop O
            ((words.drop 1).zip (ProGen.genStratLoop O (words.drop 1).length "" j1).1)
            gu1.1 gu1.2 (ProGen.genStratLoop O (words.drop 1).length "" j1).2
          with e | ⟨res2, j3⟩
        · rw [hwl] at h
          exact absurd h (by simp)
        · rw [hwl] at h
          cases res2 with
          | none =>
              dsimp only at h
              exact absurd h (by simp)
          | some gu2 =>
              dsimp only at h
              have hinv2 : ProInv gu2.1 gu2.2 :=
                proWordsLoop_inv O _ gu1.1 gu1.2 _ gu2 j3 hinv1 hwl
              rcases hfg : (if (ProGen.getRemainingLetters O words gu2.2 j3).1.length ≠ 0 then
                  ProGen.fillGapsIntelligently gu2.1 gu2.2
                    (ProGen.getRemainingLetters O words gu2.2 j3).1
                else some gu2) with - | gu3
              · rw [hfg] at h
                dsimp only at h
                exact absurd h (by simp)
              · rw [hfg] at h
                dsimp only at h
                have hinv3 : ProInv gu3.1 gu3.2 := by
                  by_cases hrem : (ProGen.getRemainingLetters O words gu2.2 j3).1.length ≠ 0
                  · rw [if_pos hrem] at hfg
                    exact fillGaps_inv gu2.1 gu2.2 _ gu3 hinv2 hfg
                  · rw [if_neg hrem] at hfg
                    injection hfg with hfg
                    rw [← hfg]
                    exact hinv2
                obtain ⟨h1, -⟩ := Prod.mk.injEq _ _ _ _ ▸ Except.ok.injEq _ _ ▸ h
                obtain ⟨hsucc, hgrid⟩ := Prod.mk.injEq _ _ _ _ ▸ h1
                have hcount : (allPositions.filter fun q => gu3.2 q).length = CAPACITY :=
                  of_decide_eq_true hsucc
                have hall := filter_full (fun q => gu3.2 q) allPositions
                  (by rw [hcount]; rfl)
                rw [← hgrid]
                exact hinv3 p (hall p hp)

/-- A grid returned by the pro attempt loop comes from a successful
attempt. -/
theorem proAttemptLoop_some (O : ProGen.ProO) (words : List (List Char)) :
    ∀ n k g k2, ProGen.proAttemptLoop O words n k = Except.ok (some g, k2) →
      ∃ k0 k1, ProGen.tryProGeneration O words k0 = Except.ok ((true, g), k1) := by
  intro n
  induction n with
  | zero =>
      intro k g k2 h
      exact absurd h (by simp [ProGen.proAttemptLoop])
  | succ m ih =>
      intro k g k2 h
      rw [show ProGen.proAttemptLoop O words (m + 1) k =
          (match ProGen.tryProGeneration O words k with
           | Except.error e => Except.error e
           | Except.ok ((true, grid), j) => Except.ok (some grid, j)
           | Except.ok ((false, _), j) => ProGen.proAttemptLoop O words m j) from rfl] at h
      rcases ht : ProGen.tryProGeneration O words k with e | ⟨⟨b, g1⟩, j⟩
      · rw [ht] at h
        exact absurd h (by simp)
      · rw [ht] at h
        cases b
        · exact ih j g k2 h
        · obtain ⟨h1, -⟩ := Prod.mk.injEq _ _ _ _ ▸ Except.ok.injEq _ _ ▸ h
          injection h1 with h1
          exact ⟨k, j, by rw [ht, h1]⟩

/-- **C3** — the grid has 48 cells, and for every generation that
succeeds (empty returned error list) each of them holds a letter — for
the BFS generator and for the pro generator (the one cited alongside it;
its success check requires all 48 occupancy flags, and every occupied
cell was written together with its letter). -/
theorem C3_coverage :
    allPositions.length = CAPACITY ∧
    (∀ (input : Input) (O : Nat → BfsGen.AttO),
      (BfsGen.generateBFSStrandsGrid O input).errors = [] →
      ∀ p ∈ allPositions,
        (cellAt (BfsGen.generateBFSStrandsGrid O input).grid p).ch ≠ none) ∧
    (∀ (input : Input) (O : ProGen.ProO) (r : GenResult),
      ProGen.generateProGrid O input = Except.ok r → r.errors = [] →
      ∀ p ∈ allPositions, (cellAt r.grid p).ch ≠ none) := by
  refine ⟨rfl, ?_, ?_⟩
  · intro input O herr p hp
    unfold BfsGen.generateBFSStrandsGrid at herr ⊢
    by_cases hv : (BfsGen.validateInput input).errors ≠ []
    · rw [if_pos hv] at herr
      exact absurd herr hv
    · rw [if_neg hv] at herr ⊢
      rcases bfsAttemptLoop_cases O (BfsGen.validateInput input).cleanWords 10 0 with
        ⟨g, hg, j, -, -, hrun⟩ | hnone
      · rw [hg]
        exact runAlg_success_full (O j) _ g hrun p hp
      · rw [hnone] at herr
        exact absurd herr (by simp [BfsGen.terminalMsg])
  · intro input O r hok herr p hp
    unfold ProGen.generateProGrid at hok
    by_cases hv : (ProGen.validateInput input).errors ≠ []
    · rw [if_pos hv] at hok
      injection hok with hok
      rw [← hok] at herr
      exact absurd herr hv
    · rw [if_neg hv] at hok
      rcases proAttemptLoop_cases O (ProGen.validateInput input).cleanWords 100 0 with
        h1 | ⟨g, j2, h2⟩ | ⟨j2, h3⟩
      · rw [h1] at hok
        exact absurd hok (by simp)
      · rw [h2] at hok
        injection hok with hok
        obtain ⟨k0, k1, htry⟩ :=
          proAttemptLoop_some O (ProGen.validateInput input).cleanWords 100 0 g j2 h2
        have := tryPro_success_full O _ g k0 k1 htry p hp
        rw [← hok]
        exact this
      · rw [h3] at hok
        injection hok with hok
        rw [← hok] at herr
        exact absurd herr (by simp [ProGen.terminalMsgPro])

/-! ## C2 / C1 (amended) — the BFS spangram path

The suite below proves that a successful `runBFSStrandsAlgorithm` run
flags exactly one simple 8-adjacent path spelling the spangram, starting
on the left/top border.  It follows the source: BFS invariants for
`runBFS`, truncation facts for `placeSpangram`, and write-phase
preservation for step 6. -/

/-- Every neighbour produced by `createGridGraph` is in bounds and
8-adjacent to its node. -/
theorem mem_gridNeighbors {dropDiag : Pos → Int × Int → Bool} {p q : Pos}
    (h : q ∈ BfsGen.gridNeighbors dropDiag p) : inBounds q ∧ adjacent8 p q := by
  simp only [BfsGen.gridNeighbors, List.mem_filterMap] at h
  obtain ⟨d, hd, hq⟩ := h
  by_cases hc : (inBoundsB (shift p d) && !(BfsGen.isDiagonal d && dropDiag p d)) = true
  · rw [if_pos hc] at hq
    injection hq with hq
    subst hq
    refine ⟨?_, adjacent8_shift p hd⟩
    have hb := (Bool.and_eq_true _ _).mp hc |>.1
    exact of_decide_eq_true hb
  · rw [if_neg hc] at hq
    exact absurd hq (by simp)

/-- The 48 listed cells are pairwise distinct. -/
theorem allPositions_nodup : allPositions.Nodup := by decide

/-- Every candidate (start, end) pair of `placeSpangram` starts on the
left column (horizontal coin) or the top row (vertical coin), in
bounds. -/
theorem placePairs_start (horiz : Bool) :
    ∀ pr ∈ BfsGen.placePairs horiz, onStartBorder pr.1 ∧ inBounds pr.1 := by
  cases horiz <;> decide

/-- Flipping one listed element of a filter from rejected to accepted
grows the count by exactly one. -/
theorem filter_length_flip :
    ∀ (l : List Pos), l.Nodup → ∀ (x : Pos), x ∈ l →
      ∀ (p q : Pos → Bool), p x = false → q x = true →
      (∀ y ∈ l, y ≠ x → q y = p y) →
      (l.filter q).length = (l.filter p).length + 1 := by
  intro l
  induction l with
  | nil => intro _ x hx; exact absurd hx (List.not_mem_nil x)
  | cons a t ih =>
      intro hnd x hx p q hpx hqx hagree
      have hndt := (List.nodup_cons.mp hnd).2
      have hat := (List.nodup_cons.mp hnd).1
      by_cases hax : a = x
      · subst hax
        have hfq : (a :: t).filter q = a :: t.filter q := by
          rw [List.filter_cons, if_pos hqx]
        have hfp : (a :: t).filter p = t.filter p := by
          rw [List.filter_cons, hpx]; rfl
        have hcongr : t.filter q = t.filter p :=
          List.filter_congr fun y hy =>
            hagree y (List.mem_cons_of_mem a hy) (fun he => hat (he ▸ hy))
        rw [hfq, hfp, hcongr, List.length_cons]
      · have hxt : x ∈ t := (List.mem_cons.mp hx).resolve_left fun he => hax he.symm
        have hqa : q a = p a := hagree a (List.mem_cons_self a t) hax
        have hrec := ih hndt x hxt p q hpx hqx
          (fun y hy => hagree y (List.mem_cons_of_mem a hy))
        rw [List.filter_cons, List.filter_cons, hqa]
        by_cases hpa : p a = true
        · simp only [if_pos hpa, List.length_cons]
          omega
        · simp only [if_neg hpa]
          exact hrec

/-- The BFS loop invariant, relative to the neighbour function and the
start cell: the start has distance 0; every parent pointer goes to a
discovered node one step closer whose neighbour list contains the child;
only the start is a discovered root; queued nodes are discovered;
discovered nodes are in bounds; and each discovered node's distance is
strictly below the number of discovered nodes (so parent chains fit in
the grid). -/
structure BfsInv (nbrs : Pos → List Pos) (start : Pos) (st : BfsGen.BfsSt) : Prop where
  start_dist : st.dist start = 0
  parent_link : ∀ p q, st.parent p = some q →
    p ∈ nbrs q ∧ st.dist p = st.dist q + 1 ∧ 0 ≤ st.dist q
  root : ∀ p, 0 ≤ st.dist p → st.parent p = none → p = start
  queue_disc : ∀ p ∈ st.queue, 0 ≤ st.dist p
  disc_bounds : ∀ p, 0 ≤ st.dist p → inBounds p
  disc_lt : ∀ p, 0 ≤ st.dist p →
    st.dist p < (allPositions.filter fun q => decide (0 ≤ st.dist q)).length

/-- `walkParents` with enough fuel reconstructs the full parent chain:
a nonempty list from the start to the queried node, consecutive entries
linked by the neighbour relation, with strictly increasing distances,
all discovered. -/
theorem walkParents_spec {nbrs : Pos → List Pos} {start : Pos}
    (dist : Pos → Int) (parent : Pos → Option Pos)
    (hlink : ∀ p q, parent p = some q → p ∈ nbrs q ∧ dist p = dist q + 1 ∧ 0 ≤ dist q)
    (hroot : ∀ p, 0 ≤ dist p → parent p = none → p = start) :
    ∀ (fuel : Nat) (p : Pos), 0 ≤ dist p → (dist p).toNat < fuel →
      BfsGen.walkParents parent fuel p ≠ [] ∧
      (BfsGen.walkParents parent fuel p).head? = some start ∧
      (BfsGen.walkParents parent fuel p).getLast? = some p ∧
      (BfsGen.walkParents parent fuel p).Chain' (fun a b => b ∈ nbrs a) ∧
      (BfsGen.walkParents parent fuel p).Chain' (fun a b => dist a < dist b) ∧
      ∀ q ∈ BfsGen.walkParents parent fuel p, 0 ≤ dist q := by
  intro fuel
  induction fuel with
  | zero => intro p _ hlt; exact absurd hlt (Nat.not_lt_zero _)
  | succ m ih =>
      intro p hp hlt
      rw [show BfsGen.walkParents parent (m + 1) p =
          (match parent p with
           | none => [p]
           | some q => BfsGen.walkParents parent m q ++ [p]) from rfl]
      rcases hpar : parent p with - | q
      · refine ⟨by simp, by simpa using hroot p hp hpar, by simp, by simp, by simp, ?_⟩
        intro r hr
        rw [List.mem_singleton.mp hr]
        exact hp
      · obtain ⟨hmem, hd, hq⟩ := hlink p q hpar
        have hqlt : (dist q).toNat < m := by omega
        obtain ⟨hne, hhead, hlast, hchn, hchd, hdisc⟩ := ih q hq hqlt
        refine ⟨by simp, ?_, by simp, ?_, ?_, ?_⟩
        · rw [List.head?_append_of_ne_nil]
          · exact hhead
          · exact hne
        · rw [List.chain'_append]
          refine ⟨hchn, List.chain'_singleton p, ?_⟩
          intro x hx y hy
          rw [hlast] at hx
          have hxq : x = q := Eq.symm (by simpa using hx)
          have hyp : y = p := Eq.symm (by simpa using hy)
          rw [hxq, hyp]
          exact hmem
        · rw [List.chain'_append]
          refine ⟨hchd, List.chain'_singleton p, ?_⟩
          intro x hx y hy
          rw [hlast] at hx
          have hxq : x = q := Eq.symm (by simpa using hx)
          have hyp : y = p := Eq.symm (by simpa using hy)
          rw [hxq, hyp]
          omega
        · intro r hr
          rcases List.mem_append.mp hr with hr | hr
          · exact hdisc r hr
          · rw [List.mem_singleton.mp hr]
            exact hp

/-- Relaxing one neighbour preserves the invariant, and leaves the
distance of every already-discovered node unchanged. -/
theorem relaxNbr_inv {nbrs : Pos → List Pos} {start : Pos}
    (hn : ∀ p q, q ∈ nbrs p → inBounds q)
    {st : BfsGen.BfsSt} (inv : BfsInv nbrs start st) {cur nbr : Pos}
    (hcur : 0 ≤ st.dist cur) (hnbr : nbr ∈ nbrs cur) :
    BfsInv nbrs start (BfsGen.relaxNbr cur st nbr) ∧
      ∀ p, 0 ≤ st.dist p → (BfsGen.relaxNbr cur st nbr).dist p = st.dist p := by
  unfold BfsGen.relaxNbr
  by_cases h : st.dist nbr = -1
  · rw [if_pos h]
    have hcurne : cur ≠ nbr := fun he => by rw [he, h] at hcur; omega
    have hstab : ∀ p, 0 ≤ st.dist p →
        (if p = nbr then st.dist cur + 1 else st.dist p) = st.dist p := by
      intro p hp
      exact if_neg fun he : p = nbr => by rw [he, h] at hp; omega
    have hcount : (allPositions.filter fun q =>
          decide (0 ≤ if q = nbr then st.dist cur + 1 else st.dist q)).length =
        (allPositions.filter fun q => decide (0 ≤ st.dist q)).length + 1 := by
      apply filter_length_flip allPositions allPositions_nodup nbr
        ((inBounds_iff_mem nbr).mp (hn cur nbr hnbr))
      · exact decide_eq_false fun hc => by rw [h] at hc; omega
      · rw [if_pos rfl]
        exact decide_eq_true (by omega)
      · intro y _ hy
        rw [if_neg hy]
    refine ⟨⟨?_, ?_, ?_, ?_, ?_, ?_⟩, hstab⟩
    · show (if start = nbr then st.dist cur + 1 else st.dist start) = 0
      rw [hstab start (by rw [inv.start_dist])]
      exact inv.start_dist
    · intro p q hpq
      by_cases hp : p = nbr
      · have hq : q = cur := by
          have h2 : (if p = nbr then some cur else st.parent p) = some q := hpq
          rw [if_pos hp] at h2
          exact (Option.some_inj.mp h2).symm
        refine ⟨by rw [hp, hq]; exact hnbr, ?_, ?_⟩
        · show (if p = nbr then st.dist cur + 1 else st.dist p) =
            (if q = nbr then st.dist cur + 1 else st.dist q) + 1
          rw [if_pos hp, hq, if_neg hcurne]
        · show (0 : Int) ≤ if q = nbr then st.dist cur + 1 else st.dist q
          rw [hq, if_neg hcurne]
          exact hcur
      · have hpar : st.parent p = some q := by
          have : (if p = nbr then some cur else st.parent p) = some q := hpq
          rwa [if_neg hp] at this
        obtain ⟨hm, hd, hq0⟩ := inv.parent_link p q hpar
        have hqne : q ≠ nbr := fun he => by rw [he, h] at hq0; omega
        refine ⟨hm, ?_, ?_⟩
        · show (if p = nbr then st.dist cur + 1 else st.dist p) =
            (if q = nbr then st.dist cur + 1 else st.dist q) + 1
          rw [if_neg hp, if_neg hqne]
          exact hd
        · show (0 : Int) ≤ if q = nbr then st.dist cur + 1 else st.dist q
          rw [if_neg hqne]
          exact hq0
    · intro p hp hpar
      by_cases he : p = nbr
      · exfalso
        have : (if p = nbr then some cur else st.parent p) = none := hpar
        rw [if_pos he] at this
        exact absurd this (by simp)
      · have hp2 : 0 ≤ st.dist p := by
          have : (0 : Int) ≤ if p = nbr then st.dist cur + 1 else st.dist p := hp
          rwa [if_neg he] at this
        have hpar2 : st.parent p = none := by
          have : (if p = nbr then some cur else st.parent p) = none := hpar
          rwa [if_neg he] at this
        exact inv.root p hp2 hpar2
    · intro p hp
      rcases List.mem_append.mp hp with hp | hp
      · have := inv.queue_disc p hp
        show (0 : Int) ≤ if p = nbr then st.dist cur + 1 else st.dist p
        rw [hstab p this]
        exact this
      · rw [List.mem_singleton.mp hp]
        show (0 : Int) ≤ if nbr = nbr then st.dist cur + 1 else st.dist nbr
        rw [if_pos rfl]
        omega
    · intro p hp
      by_cases he : p = nbr
      · rw [he]
        exact hn cur nbr hnbr
      · have hp2 : 0 ≤ st.dist p := by
          have : (0 : Int) ≤ if p = nbr then st.dist cur + 1 else st.dist p := hp
          rwa [if_neg he] at this
        exact inv.disc_bounds p hp2
    · intro p hp
      show (if p = nbr then st.dist cur + 1 else st.dist p) <
        (allPositions.filter fun q =>
          decide (0 ≤ if q = nbr then st.dist cur + 1 else st.dist q)).length
      rw [hcount]
      by_cases he : p = nbr
      · rw [if_pos he]
        have := inv.disc_lt cur hcur
        omega
      · rw [if_neg he]
        have hp2 : 0 ≤ st.dist p := by
          have : (0 : Int) ≤ if p = nbr then st.dist cur + 1 else st.dist p := hp
          rwa [if_neg he] at this
        have := inv.disc_lt p hp2
        omega
  · rw [if_neg h]
    exact ⟨inv, fun _ _ => rfl⟩

/-- Folding `relaxNbr` over a neighbour list preserves the invariant. -/
theorem foldRelax_inv {nbrs : Pos → List Pos} {start : Pos}
    (hn : ∀ p q, q ∈ nbrs p → inBounds q) (cur : Pos) :
    ∀ (l : List Pos) (st : BfsGen.BfsSt), BfsInv nbrs start st →
      (∀ q ∈ l, q ∈ nbrs cur) → 0 ≤ st.dist cur →
      BfsInv nbrs start (l.foldl (BfsGen.relaxNbr cur) st) := by
  intro l
  induction l with
  | nil => intro st inv _ _; exact inv
  | cons a t ih =>
      intro st inv hl hcur
      rw [List.foldl_cons]
      obtain ⟨inv1, hstab⟩ := relaxNbr_inv hn inv hcur (hl a (List.mem_cons_self a t))
      refine ih _ inv1 (fun q hq => hl q (List.mem_cons_of_mem a hq)) ?_
      rw [hstab cur hcur]
      exact hcur

/-- Any path returned by the BFS loop from an invariant state runs from
the start to the target along neighbour edges, without repeats, in
bounds. -/
theorem bfsLoop_spec {nbrs : Pos → List Pos} {start target : Pos}
    (hn : ∀ p q, q ∈ nbrs p → inBounds q) :
    ∀ (fuel : Nat) (st : BfsGen.BfsSt), BfsInv nbrs start st →
      ∀ path, BfsGen.bfsLoop nbrs target fuel st = some path →
        path ≠ [] ∧ path.head? = some start ∧ path.getLast? = some target ∧
        path.Chain' (fun a b => b ∈ nbrs a) ∧ path.Nodup ∧
        ∀ p ∈ path, inBounds p := by
  intro fuel
  induction fuel with
  | zero => intro st _ path h; exact absurd h (by simp [BfsGen.bfsLoop])
  | succ m ih =>
      intro st inv path h
      rw [show BfsGen.bfsLoop nbrs target (m + 1) st =
          (match st.queue with
           | [] => none
           | cur :: rest =>
               if cur = target then some (BfsGen.walkParents st.parent 64 cur)
               else
                 BfsGen.bfsLoop nbrs target m
                   ((nbrs cur).foldl (BfsGen.relaxNbr cur)
                     { st with queue := rest })) from rfl] at h
      rcases hq : st.queue with - | ⟨cur, rest⟩
      · rw [hq] at h
        exact absurd h (by simp)
      · rw [hq] at h
        dsimp only at h
        have hcur : 0 ≤ st.dist cur :=
          inv.queue_disc cur (by rw [hq]; exact List.mem_cons_self cur rest)
        by_cases htgt : cur = target
        · rw [if_pos htgt] at h
          injection h with h
          subst h
          obtain ⟨hne, hhead, hlast, hchn, hchd, hdisc⟩ :=
            walkParents_spec st.dist st.parent inv.parent_link inv.root 64 cur hcur (by
              have h1 := inv.disc_lt cur hcur
              have h2 := List.length_filter_le (fun q => decide (0 ≤ st.dist q)) allPositions
              have h3 : allPositions.length = 48 := rfl
              omega)
          refine ⟨hne, hhead, ?_, hchn, ?_, ?_⟩
          · rw [hlast, htgt]
          · haveI : IsTrans Pos (fun a b => st.dist a < st.dist b) :=
              ⟨fun a b c h1 h2 => h1.trans h2⟩
            exact (List.chain'_iff_pairwise.mp hchd).imp
              fun hlt he => absurd (he ▸ hlt) (lt_irrefl _)
          · intro p hp
            exact inv.disc_bounds p (hdisc p hp)
        · rw [if_neg htgt] at h
          have inv2 : BfsInv nbrs start { st with queue := rest } :=
            ⟨inv.start_dist, inv.parent_link, inv.root,
             fun p hp => inv.queue_disc p (by rw [hq]; exact List.mem_cons_of_mem cur hp),
             inv.disc_bounds, inv.disc_lt⟩
          exact ih _ (foldRelax_inv hn cur (nbrs cur) _ inv2 (fun q hq2 => hq2) hcur) path h

/-- `runBFS` only ever returns a duplicate-free in-bounds path from the
start to the target along neighbour edges. -/
theorem runBFS_spec {nbrs : Pos → List Pos} (hn : ∀ p q, q ∈ nbrs p → inBounds q)
    {start target : Pos} (hs : inBounds start) {path : List Pos}
    (h : BfsGen.runBFS nbrs start target = some path) :
    path ≠ [] ∧ path.head? = some start ∧ path.getLast? = some target ∧
    path.Chain' (fun a b => b ∈ nbrs a) ∧ path.Nodup ∧
    ∀ p ∈ path, inBounds p := by
  have inv0 : BfsInv nbrs start
      ⟨fun p => if p = start then 0 else -1, fun _ => none, [start]⟩ := by
    refine ⟨?_, ?_, ?_, ?_, ?_, ?_⟩
    · exact if_pos rfl
    · intro p q hpq
      exact absurd hpq (by simp)
    · intro p hp _
      by_cases he : p = start
      · exact he
      · exfalso
        have hp2 : (0 : Int) ≤ if p = start then 0 else -1 := hp
        rw [if_neg he] at hp2
        omega
    · intro p hp
      rw [List.mem_singleton.mp hp]
      show (0 : Int) ≤ if start = start then 0 else -1
      rw [if_pos rfl]
    · intro p hp
      by_cases he : p = start
      · rw [he]
        exact hs
      · exfalso
        have hp2 : (0 : Int) ≤ if p = start then 0 else -1 := hp
        rw [if_neg he] at hp2
        omega
    · intro p hp
      have hpeq : p = start := by
        by_cases he : p = start
        · exact he
        · exfalso
          have hp2 : (0 : Int) ≤ if p = start then 0 else -1 := hp
          rw [if_neg he] at hp2
          omega
      subst hpeq
      show (if p = p then (0 : Int) else -1) <
        (allPositions.filter fun q => decide (0 ≤ if q = p then (0 : Int) else -1)).length
      rw [if_pos rfl]
      have hmem : p ∈ allPositions.filter
          fun q => decide (0 ≤ if q = p then (0 : Int) else -1) :=
        List.mem_filter.mpr ⟨(inBounds_iff_mem p).mp hs, by rw [if_pos rfl]; decide⟩
      exact_mod_cast List.length_pos.mpr (List.ne_nil_of_mem hmem)
  exact bfsLoop_spec hn 100 _ inv0 path h

/-- Truncation keeps the head of a nonempty prefix. -/
theorem take_head {α : Type} (l : List α) (n : Nat) (h : n ≠ 0) :
    (l.take n).head? = l.head? := by
  cases l with
  | nil => simp
  | cons a t =>
      cases n with
      | zero => exact absurd rfl h
      | succ m => simp

/-- The spangram placement loop only returns the `len`-prefix of a BFS
path at least `len` long, whose start came from the candidate list: a
duplicate-free 8-adjacent in-bounds path of length exactly `len` headed
by a border cell. -/
theorem placeSpangramLoop_spec {dropDiag : Pos → Int × Int → Bool} (len : Nat)
    (hlen : 0 < len) :
    ∀ (prs : List (Pos × Pos)), (∀ pr ∈ prs, onStartBorder pr.1 ∧ inBounds pr.1) →
      ∀ ps, BfsGen.placeSpangramLoop (BfsGen.gridNeighbors dropDiag) len prs = some ps →
        ps.length = len ∧ ps.Nodup ∧ ps.Chain' adjacent8 ∧ (∀ p ∈ ps, inBounds p) ∧
        ∃ s, ps.head? = some s ∧ onStartBorder s := by
  intro prs
  induction prs with
  | nil => intro _ ps h; exact absurd h (by simp [BfsGen.placeSpangramLoop])
  | cons pr rest ih =>
      intro hprs ps h
      rcases pr with ⟨s, e⟩
      rw [show BfsGen.placeSpangramLoop (BfsGen.gridNeighbors dropDiag) len
            ((s, e) :: rest) =
          (match BfsGen.runBFS (BfsGen.gridNeighbors dropDiag) s e with
           | some path =>
               if len ≤ path.length then some (path.take len)
               else BfsGen.placeSpangramLoop (BfsGen.gridNeighbors dropDiag) len rest
           | none =>
               BfsGen.placeSpangramLoop (BfsGen.gridNeighbors dropDiag) len rest)
          from rfl] at h
      rcases hb : BfsGen.runBFS (BfsGen.gridNeighbors dropDiag) s e with - | path
      · rw [hb] at h
        exact ih (fun pr hpr => hprs pr (List.mem_cons_of_mem _ hpr)) ps h
      · rw [hb] at h
        dsimp only at h
        by_cases hl : len ≤ path.length
        · rw [if_pos hl] at h
          injection h with h
          subst h
          have hsprops := hprs (s, e) (List.mem_cons_self _ _)
          have hnb : ∀ p q : Pos, q ∈ BfsGen.gridNeighbors dropDiag p → inBounds q :=
            fun p q hq => (mem_gridNeighbors hq).1
          obtain ⟨hne, hhead, hlast, hchn, hnd, hbnd⟩ := runBFS_spec hnb hsprops.2 hb
          refine ⟨?_, ?_, ?_, ?_, ?_⟩
          · rw [List.length_take]
            omega
          · exact hnd.sublist (List.take_sublist len path)
          · exact (hchn.imp fun a b hab => (mem_gridNeighbors hab).2).take len
          · intro p hp
            exact hbnd p ((List.take_sublist len path).subset hp)
          · exact ⟨s, by rw [take_head path len (by omega), hhead], hsprops.1⟩
        · rw [if_neg hl] at h
          exact ih (fun pr hpr => hprs pr (List.mem_cons_of_mem _ hpr)) ps h

/-- `placeSpangram` only returns a duplicate-free 8-adjacent in-bounds
path of exactly the spangram's length, starting on the left column or
the top row. -/
theorem placeSpangram_spec (dropDiag : Pos → Int × Int → Bool) (horiz : Bool)
    (spangram : List Char) (hsp : spangram ≠ []) {ps : List Pos}
    (h : BfsGen.placeSpangram (BfsGen.gridNeighbors dropDiag) horiz spangram = some ps) :
    ps.length = spangram.length ∧ ps.Nodup ∧ ps.Chain' adjacent8 ∧
    (∀ p ∈ ps, inBounds p) ∧ ∃ s, ps.head? = some s ∧ onStartBorder s :=
  placeSpangramLoop_spec spangram.length (List.length_pos.mpr hsp)
    (BfsGen.placePairs horiz) (placePairs_start horiz) ps h

/-- A validated input's spangram (the first clean word) is nonempty —
the spangram-length check would have raised an error otherwise. -/
theorem validateInput_spangram_ne (input : Input)
    (h : (BfsGen.validateInput input).errors = []) :
    (BfsGen.validateInput input).cleanWords.headD [] ≠ [] := by
  intro hnil
  simp only [BfsGen.validateInput] at h hnil
  rw [List.append_eq_nil] at h
  obtain ⟨h12, -⟩ := h
  rw [List.append_eq_nil] at h12
  obtain ⟨-, h2⟩ := h12
  rw [hnil] at h2
  simp at h2

/-- Folding a step that never rewrites lettered cells preserves them. -/
theorem foldl_preserve {ι : Type} (step : GridF → ι → GridF)
    (hstep : ∀ g i p, (cellAt g p).ch ≠ none → cellAt (step g i) p = cellAt g p) :
    ∀ (l : List ι) (g : GridF) (p : Pos), (cellAt g p).ch ≠ none →
      cellAt (l.foldl step g) p = cellAt g p := by
  intro l
  induction l with
  | nil => intro g p _; rfl
  | cons a t ih =>
      intro g p hp
      rw [List.foldl_cons]
      have h1 := hstep g a p hp
      rw [ih (step g a) p (by rw [h1]; exact hp), h1]

/-- `writeWord` only writes empty cells: lettered cells are unchanged. -/
theorem writeWord_preserve (g : GridF) (w : List Char) (pth : List Pos) (p : Pos)
    (hp : (cellAt g p).ch ≠ none) :
    cellAt (BfsGen.writeWord g w pth) p = cellAt g p := by
  refine foldl_preserve _ ?_ (List.range (min w.length pth.length)) g p hp
  intro g i p hp2
  dsimp only
  split
  · rename_i hcond
    rw [cellAt_setCell]
    by_cases hpe : p = pth.getD i (0, 0)
    · exfalso
      have hnone := of_decide_eq_true ((Bool.and_eq_true _ _).mp hcond).2
      rw [← hpe] at hnone
      exact hp2 hnone
    · rw [if_neg hpe]
  · rfl

/-- `fillRandom` only writes empty cells: lettered cells are unchanged. -/
theorem fillRandom_preserve (fillIdx : Pos → Nat) (g : GridF) (p : Pos)
    (hp : (cellAt g p).ch ≠ none) :
    cellAt (BfsGen.fillRandom fillIdx g) p = cellAt g p := by
  refine foldl_preserve _ ?_ allPositions g p hp
  intro g q p hp2
  split
  · rename_i hcond
    rw [cellAt_setCell]
    by_cases hpe : p = q
    · exact absurd (hpe ▸ hcond) hp2
    · rw [if_neg hpe]
  · rfl

/-- `writeSpill` only writes empty cells: lettered cells are unchanged. -/
theorem writeSpill_preserve :
    ∀ (l : List Pos) (g : GridF) (cs : List Char) (p : Pos),
      (cellAt g p).ch ≠ none → cellAt (BfsGen.writeSpill l g cs) p = cellAt g p := by
  intro l
  induction l with
  | nil => intro g cs p _; rfl
  | cons q rest ih =>
      intro g cs p hp
      cases cs with
      | nil => rfl
      | cons c cs2 =>
          rw [show BfsGen.writeSpill (q :: rest) g (c :: cs2) =
              (if (cellAt g q).ch = none then
                BfsGen.writeSpill rest (setCell g q ⟨some c, false⟩) cs2
              else BfsGen.writeSpill rest g (c :: cs2)) from rfl]
          by_cases hc : (cellAt g q).ch = none
          · rw [if_pos hc]
            have hqp : p ≠ q := fun he => hp (he ▸ hc)
            have hkeep : (cellAt (setCell g q ⟨some c, false⟩) p).ch ≠ none := by
              rw [cellAt_setCell, if_neg hqp]
              exact hp
            rw [ih _ cs2 p hkeep, cellAt_setCell, if_neg hqp]
          · rw [if_neg hc]
            exact ih g (c :: cs2) p hp

/-- `applyPlacements` only writes empty cells: lettered cells are
unchanged. -/
theorem applyPlacements_preserve :
    ∀ (wps : List BfsGen.WordPlacement) (g : GridF) (p : Pos),
      (cellAt g p).ch ≠ none → cellAt (BfsGen.applyPlacements g wps) p = cellAt g p := by
  intro wps
  induction wps with
  | nil => intro g p _; rfl
  | cons pl rest ih =>
      intro g p hp
      rw [show BfsGen.applyPlacements g (pl :: rest) =
          BfsGen.applyPlacements
            (if pl.path.length < pl.word.length then
              BfsGen.writeSpill allPositions (BfsGen.writeWord g pl.word pl.path)
                (pl.word.drop pl.path.length)
            else BfsGen.writeWord g pl.word pl.path) rest from rfl]
      have h1 := writeWord_preserve g pl.word pl.path p hp
      by_cases hc : pl.path.length < pl.word.length
      · rw [if_pos hc]
        have h2 := writeSpill_preserve allPositions _ (pl.word.drop pl.path.length) p
          (by rw [h1]; exact hp)
        rw [ih _ p (by rw [h2, h1]; exact hp), h2, h1]
      · rw [if_neg hc]
        rw [ih _ p (by rw [h1]; exact hp), h1]

/-- Folding a step that never sets the spangram flag cannot flag a
cell. -/
theorem foldl_flag {ι : Type} (step : GridF → ι → GridF)
    (hstep : ∀ g i p, (cellAt (step g i) p).isSpangram = true →
      (cellAt g p).isSpangram = true) :
    ∀ (l : List ι) (g : GridF) (p : Pos),
      (cellAt (l.foldl step g) p).isSpangram = true →
      (cellAt g p).isSpangram = true := by
  intro l
  induction l with
  | nil => intro g p h; exact h
  | cons a t ih =>
      intro g p h
      rw [List.foldl_cons] at h
      exact hstep g a p (ih (step g a) p h)

/-- `writeWord` never sets the spangram flag. -/
theorem writeWord_flag (g : GridF) (w : List Char) (pth : List Pos) (p : Pos)
    (h : (cellAt (BfsGen.writeWord g w pth) p).isSpangram = true) :
    (cellAt g p).isSpangram = true := by
  refine foldl_flag _ ?_ (List.range (min w.length pth.length)) g p h
  intro g i p h2
  revert h2
  dsimp only
  split
  · intro h2
    rw [cellAt_setCell] at h2
    by_cases hpe : p = pth.getD i (0, 0)
    · rw [if_pos hpe] at h2
      exact absurd h2 (by simp)
    · rwa [if_neg hpe] at h2
  · intro h2
    exact h2

/-- `fillRandom` never sets the spangram flag. -/
theorem fillRandom_flag (fillIdx : Pos → Nat) (g : GridF) (p : Pos)
    (h : (cellAt (BfsGen.fillRandom fillIdx g) p).isSpangram = true) :
    (cellAt g p).isSpangram = true := by
  refine foldl_flag _ ?_ allPositions g p h
  intro g q p h2
  revert h2
  split
  · intro h2
    rw [cellAt_setCell] at h2
    by_cases hpe : p = q
    · rw [if_pos hpe] at h2
      exact absurd h2 (by simp)
    · rwa [if_neg hpe] at h2
  · intro h2
    exact h2

/-- `writeSpill` never sets the spangram flag. -/
theorem writeSpill_flag :
    ∀ (l : List Pos) (g : GridF) (cs : List Char) (p : Pos),
      (cellAt (BfsGen.writeSpill l g cs) p).isSpangram = true →
      (cellAt g p).isSpangram = true := by
  intro l
  induction l with
  | nil => intro g cs p h; exact h
  | cons q rest ih =>
      intro g cs p h
      cases cs with
      | nil => exact h
      | cons c cs2 =>
          rw [show BfsGen.writeSpill (q :: rest) g (c :: cs2) =
              (if (cellAt g q).ch = none then
                BfsGen.writeSpill rest (setCell g q ⟨some c, false⟩) cs2
              else BfsGen.writeSpill rest g (c :: cs2)) from rfl] at h
          by_cases hc : (cellAt g q).ch = none
          · rw [if_pos hc] at h
            have h2 := ih _ cs2 p h
            rw [cellAt_setCell] at h2
            by_cases hpe : p = q
            · rw [if_pos hpe] at h2
              exact absurd h2 (by simp)
            · rwa [if_neg hpe] at h2
          · rw [if_neg hc] at h
            exact ih g (c :: cs2) p h

/-- `applyPlacements` never sets the spangram flag. -/
theorem applyPlacements_flag :
    ∀ (wps : List BfsGen.WordPlacement) (g : GridF) (p : Pos),
      (cellAt (BfsGen.applyPlacements g wps) p).isSpangram = true →
      (cellAt g p).isSpangram = true := by
  intro wps
  induction wps with
  | nil => intro g p h; exact h
  | cons pl rest ih =>
      intro g p h
      rw [show BfsGen.applyPlacements g (pl :: rest) =
          BfsGen.applyPlacements
            (if pl.path.length < pl.word.length then
              BfsGen.writeSpill allPositions (BfsGen.writeWord g pl.word pl.path)
                (pl.word.drop pl.path.length)
            else BfsGen.writeWord g pl.word pl.path) rest from rfl] at h
      have h2 := ih _ p h
      by_cases hc : pl.path.length < pl.word.length
      · rw [if_pos hc] at h2
        exact writeWord_flag g pl.word pl.path p
          (writeSpill_flag allPositions _ (pl.word.drop pl.path.length) p h2)
      · rw [if_neg hc] at h2
        exact writeWord_flag g pl.word pl.path p h2

/-- The spangram write pass, cell by cell: after `n` writes the first
`n` path cells hold their flagged letters and everything else is
untouched. -/
theorem writeSpangram_cells (g0 : GridF) (spangram : List Char) (ps : List Pos)
    (hlen : ps.length = spangram.length) (hnd : ps.Nodup) :
    ∀ n, n ≤ spangram.length →
      (∀ i, i < n →
        cellAt ((List.range n).foldl
          (fun g i => setCell g (ps.getD i (0, 0)) ⟨some (spangram.getD i ' '), true⟩) g0)
          (ps.getD i (0, 0)) = ⟨some (spangram.getD i ' '), true⟩) ∧
      (∀ p, p ∉ ps.take n →
        cellAt ((List.range n).foldl
          (fun g i => setCell g (ps.getD i (0, 0)) ⟨some (spangram.getD i ' '), true⟩) g0) p
          = cellAt g0 p) := by
  intro n
  induction n with
  | zero => exact fun _ => ⟨fun i hi => absurd hi (Nat.not_lt_zero i), fun p _ => rfl⟩
  | succ m ih =>
      intro hle
      obtain ⟨ih1, ih2⟩ := ih (by omega)
      have hmlt : m < ps.length := by omega
      rw [List.range_succ, List.foldl_append, List.foldl_cons, List.foldl_nil]
      constructor
      · intro i hi
        rw [cellAt_setCell]
        by_cases him : i = m
        · rw [if_pos (by rw [him])]
          rw [him]
        · have hilt : i < ps.length := by omega
          have hne : ps.getD i (0, 0) ≠ ps.getD m (0, 0) := by
            rw [List.getD_eq_getElem ps (0, 0) hilt, List.getD_eq_getElem ps (0, 0) hmlt]
            intro he
            exact him ((List.Nodup.getElem_inj_iff hnd).mp he)
          rw [if_neg hne]
          exact ih1 i (by omega)
      · intro p hp
        rw [List.take_succ] at hp
        have hp1 : p ∉ ps.take m := fun hm2 => hp (List.mem_append.mpr (Or.inl hm2))
        have hp2 : p ≠ ps.getD m (0, 0) := by
          intro he
          apply hp
          refine List.mem_append.mpr (Or.inr ?_)
          rw [List.getD_eq_getElem ps (0, 0) hmlt] at he
          rw [List.getElem?_eq_getElem hmlt]
          rw [he]
          exact List.mem_singleton.mpr rfl
        rw [cellAt_setCell, if_neg hp2]
        exact ih2 p hp1

/-- `writeSpangram` on the empty grid: the path cells carry the flagged
spangram letters, all other cells stay empty and unflagged. -/
theorem writeSpangram_spec (spangram : List Char) (ps : List Pos)
    (hlen : ps.length = spangram.length) (hnd : ps.Nodup) :
    (∀ i, i < spangram.length →
      cellAt (BfsGen.writeSpangram createEmptyGrid spangram ps) (ps.getD i (0, 0)) =
        ⟨some (spangram.getD i ' '), true⟩) ∧
    ∀ p, p ∉ ps →
      cellAt (BfsGen.writeSpangram createEmptyGrid spangram ps) p = ⟨none, false⟩ := by
  obtain ⟨h1, h2⟩ :=
    writeSpangram_cells createEmptyGrid spangram ps hlen hnd spangram.length le_rfl
  refine ⟨h1, ?_⟩
  intro p hp
  have hp2 : p ∉ ps.take spangram.length := by
    rw [← hlen, List.take_length]
    exact hp
  exact h2 p hp2

/-- A successful BFS-algorithm attempt flags exactly one simple
8-adjacent in-bounds path, spelling the spangram, headed by a border
cell. -/
theorem runAlg_spangram (O : BfsGen.AttO) (words : List (List Char)) (g : GridF)
    (hw : words.headD [] ≠ [])
    (h : BfsGen.runBFSStrandsAlgorithm O words = (true, g)) :
    ∃ ps : List Pos, ps.length = (words.headD []).length ∧ ps.Nodup ∧ ps.Chain' adjacent8 ∧
      (∀ p ∈ ps, inBounds p) ∧ onStartBorder (ps.headD (0, 0)) ∧
      (∀ i, i < (words.headD []).length →
        cellAt g (ps.getD i (0, 0)) = ⟨some ((words.headD []).getD i ' '), true⟩) ∧
      ∀ p, (cellAt g p).isSpangram = true ↔ p ∈ ps := by
  simp only [BfsGen.runBFSStrandsAlgorithm] at h
  rcases hsp : BfsGen.placeSpangram (BfsGen.gridNeighbors O.dropDiag) O.horiz
      (words.headD []) with - | spath
  · rw [hsp] at h
    exact absurd (congrArg Prod.fst h) (by simp)
  · rw [hsp] at h
    dsimp only at h
    rcases hss : BfsGen.subsetSum (words.drop 1)
        (((words.drop 1).map List.length).sum / 2) with - | ⟨left, right⟩
    · rw [hss] at h
      exact absurd (congrArg Prod.fst h) (by simp)
    · rw [hss] at h
      dsimp only at h
      rcases hpl : BfsGen.placeWordsLoop (BfsGen.gridNeighbors O.dropDiag) O.timer
          (O.mix false left ++ O.mix true right) 0
          (allPositions.filter fun p => !spath.contains p) [] with - | wps
      · rw [hpl] at h
        exact absurd (congrArg Prod.fst h) (by simp)
      · rw [hpl] at h
        dsimp only at h
        injection h with h1 h2
        obtain ⟨hpslen, hnd, hchain, hbnd, s, hhead, hborder⟩ :=
          placeSpangram_spec O.dropDiag O.horiz (words.headD []) hw hsp
        obtain ⟨hcells, hoff⟩ := writeSpangram_spec (words.headD []) spath hpslen hnd
        refine ⟨spath, hpslen, hnd, hchain, hbnd, ?_, ?_, ?_⟩
        · have hds : spath.headD (0, 0) = s := by
            cases spath with
            | nil => exact absurd hhead (by simp)
            | cons a t =>
                have ha : a = s := by simpa using hhead
                rw [← ha]
                rfl
          rw [hds]
          exact hborder
        · intro i hi
          have hc := hcells i hi
          have hch : (cellAt (BfsGen.writeSpangram createEmptyGrid (words.headD []) spath)
              (spath.getD i (0, 0))).ch ≠ none := by
            rw [hc]
            simp
          have hpres1 := applyPlacements_preserve wps _ (spath.getD i (0, 0)) hch
          have hpres2 := fillRandom_preserve O.fillIdx _ (spath.getD i (0, 0))
            (by rw [hpres1]; exact hch)
          rw [← h2, hpres2, hpres1, hc]
        · intro p
          constructor
          · intro hflag
            by_contra hpmem
            have h3 := fillRandom_flag O.fillIdx _ p (by rw [h2]; exact hflag)
            have h4 := applyPlacements_flag wps _ p h3
            rw [hoff p hpmem] at h4
            exact absurd h4 (by simp)
          · intro hpmem
            obtain ⟨i, hilt, hie⟩ := List.getElem_of_mem hpmem
            have hi2 : i < (words.headD []).length := by omega
            have hc := hcells i hi2
            have hgd : spath.getD i (0, 0) = p := by
              rw [List.getD_eq_getElem spath (0, 0) hilt]
              exact hie
            rw [hgd] at hc
            have hch : (cellAt (BfsGen.writeSpangram createEmptyGrid (words.headD []) spath)
                p).ch ≠ none := by
              rw [hc]
              simp
            have hpres1 := applyPlacements_preserve wps _ p hch
            have hpres2 := fillRandom_preserve O.fillIdx _ p (by rw [hpres1]; exact hch)
            rw [← h2, hpres2, hpres1, hc]

/-- **C2 (amended)** — for every successful generation by the BFS-based
variant, the cells flagged `isSpangram = true` form exactly one simple
path of 8-adjacent, pairwise-distinct, in-bounds cells spelling the
spangram word (the first clean word), and that path starts on the left
or top border — the side the breadth-first search starts from.
Truncation of the BFS path to the spangram's length (`path.slice(0,
spangramLetters.length)`) can leave the placed path short of the
opposite side, so edge-to-edge spanning does not hold in general (see
the counterexample). -/
theorem C2_spangram_flag_amended (input : Input) (O : Nat → BfsGen.AttO)
    (herr : (BfsGen.generateBFSStrandsGrid O input).errors = []) :
    ∃ ps : List Pos,
      (∀ p, (cellAt (BfsGen.generateBFSStrandsGrid O input).grid p).isSpangram = true ↔
        p ∈ ps) ∧
      isWordPath (BfsGen.generateBFSStrandsGrid O input).grid
        ((BfsGen.validateInput input).cleanWords.headD []) ps ∧
      onStartBorder (ps.headD (0, 0)) := by
  unfold BfsGen.generateBFSStrandsGrid at herr ⊢
  by_cases hv : (BfsGen.validateInput input).errors ≠ []
  · rw [if_pos hv] at herr
    exact absurd herr hv
  · rw [if_neg hv] at herr ⊢
    rcases bfsAttemptLoop_cases O (BfsGen.validateInput input).cleanWords 10 0 with
      ⟨g, hg, j, -, -, hrun⟩ | hnone
    · rw [hg]
      dsimp only
      have hw := validateInput_spangram_ne input (not_not.mp hv)
      obtain ⟨ps, hlen, hnd, hchain, hbnd, hborder, hcells, hflag⟩ :=
        runAlg_spangram (O j) _ g hw hrun
      refine ⟨ps, hflag, ⟨hlen, hbnd, hnd, hchain, ?_⟩, hborder⟩
      intro i hi
      rw [hcells i hi]
    · rw [hnone] at herr
      exact absurd herr (by simp [BfsGen.terminalMsg])

/-- The `bestPath` update of the longest-path search keeps either the
old best or the new result. -/
theorem bestUpdate_cases (result best : Option (List Pos)) (b : List Pos)
    (h : (match result, best with
          | some r, some b0 => if b0.length < r.length then some r else some b0
          | some r, none => some r
          | none, b0 => b0) = some b) :
    best = some b ∨ result = some b := by
  rcases result with - | r
  · dsimp only at h
    exact Or.inl h
  · rcases best with - | b0
    · dsimp only at h
      exact Or.inr h
    · dsimp only at h
      by_cases hlt : b0.length < r.length
      · rw [if_pos hlt] at h
        exact Or.inr h
      · rw [if_neg hlt] at h
        exact Or.inl h

/-- A valid 48-letter BFS input: spangram `"strand"` and fourteen
three-letter words. -/
def bfsRunInput : Input :=
  ⟨"t", "t", "a",
   ["strand", "cat", "dog", "pig", "fox", "owl", "bee", "ant", "bat", "cow",
    "hen", "ram", "elk", "eel", "jay"]⟩

/-- A realizable randomness draw for each attempt: keep every diagonal
edge, vertical spangram coin, identity shuffles, no timeout, filler
letter index 0. -/
def bfsRunO : Nat → BfsGen.AttO :=
  fun _ => ⟨fun _ _ => false, false, fun _ l => l, fun _ _ => false, fun _ => 0⟩

/-- A valid 48-letter pro-generator input: eight six-letter words. -/
def proRunInput : Input :=
  ⟨"t", "t", "a",
   ["strand", "puzzle", "letter", "branch", "garden", "window", "bottle", "candle"]⟩

/-- A realizable pro-generator draw: the first strategy pick selects
`border_snake`, the per-word picks alternate `complement` and
`directional_sweep`, and the direction shuffles sweep rightwards. -/
def proRunO : ProGen.ProO :=
  ⟨fun k => if k = 0 then 3 else if k = 3 ∨ k = 5 ∨ k = 7 then 4 else 0,
   fun _ => [(0, 1), (1, 1), (-1, 1), (1, 0), (-1, 0), (0, -1), (1, -1), (-1, -1)]⟩

set_option maxRecDepth 100000 in
/-- **C2 (counterexample)** — a successful BFS generation under a
realizable randomness draw whose flagged cells are the left-column path
`(0,0)…(5,0)`: it touches the top row and the left column but neither
the bottom row nor the right column, so the flagged path does not touch
two opposite sides of the boundary — `path.slice(0, 6)` cut the 8-cell
top-to-bottom BFS path down to the 6-letter spangram `"strand"`. -/
theorem C2_spangram_span_counterexample :
    (BfsGen.generateBFSStrandsGrid bfsRunO bfsRunInput).errors = [] ∧
    allPositions.filter
        (fun p =>
          (cellAt (BfsGen.generateBFSStrandsGrid bfsRunO bfsRunInput).grid p).isSpangram) =
      [(0, 0), (1, 0), (2, 0), (3, 0), (4, 0), (5, 0)] ∧
    ¬ touchesOppositeSides
        (allPositions.filter
          (fun p =>
            (cellAt (BfsGen.generateBFSStrandsGrid bfsRunO bfsRunInput).grid
              p).isSpangram)) := by
  refine ⟨?_, ?_, ?_⟩ <;> decide

set_option maxRecDepth 100000 in
/-- Witness for the amended C2: the concrete successful run above. -/
theorem C2_spangram_flag_amended_witness :
    ∃ ps : List Pos,
      (∀ p, (cellAt (BfsGen.generateBFSStrandsGrid bfsRunO bfsRunInput).grid p).isSpangram
          = true ↔ p ∈ ps) ∧
      isWordPath (BfsGen.generateBFSStrandsGrid bfsRunO bfsRunInput).grid
        ((BfsGen.validateInput bfsRunInput).cleanWords.headD []) ps ∧
      onStartBorder (ps.headD (0, 0)) :=
  C2_spangram_flag_amended bfsRunInput bfsRunO (by decide)

set_option maxRecDepth 100000 in
/-- Witness for C3: a concrete successful BFS run and a concrete
successful pro run, with the corner cell filled in both. -/
theorem C3_coverage_witness :
    (BfsGen.generateBFSStrandsGrid bfsRunO bfsRunInput).errors = [] ∧
    (cellAt (BfsGen.generateBFSStrandsGrid bfsRunO bfsRunInput).grid (0, 0)).ch ≠ none ∧
    ∃ r, ProGen.generateProGrid proRunO proRunInput = Except.ok r ∧ r.errors = [] ∧
      (cellAt r.grid (0, 0)).ch ≠ none := by
  have hb : (BfsGen.generateBFSStrandsGrid bfsRunO bfsRunInput).errors = [] := by decide
  refine ⟨hb, C3_coverage.2.1 bfsRunInput bfsRunO hb (0, 0) (by decide), _, rfl, ?_, ?_⟩
  · decide
  · exact C3_coverage.2.2 proRunInput proRunO _ rfl (by decide) (0, 0) (by decide)

end Spangrams
